import Mathlib

/-!
Verification development for the sqlmeta repository (package xmeta).

The Go source is shallowly embedded in Lean:
  * protobuf messages become Lean structures and inductives (nil-able
    pointers become Option, repeated fields become List, oneof clauses
    become inductives);
  * a Go map of type map of string to T is embedded as an association
    list in insertion order (GoMap); inserting an existing key overwrites
    in place, inserting a fresh key appends.  A range loop over a Go map
    visits the entries in an unspecified order, so functions that iterate
    a map are additionally parameterized by an explicit iteration order
    where the order is observable (DiffDatabaseWith); the unparameterized
    DiffDatabase fixes the canonical insertion order and is one possible
    run of the Go code;
  * proto dot Equal is deep structural equality, embedded as decidable
    equality of the corresponding Lean values; a nil message is only
    equal to nil, matching the embedding by Option.

The message definitions of types.proto and the dialect proto files are
not part of the given sources; their shapes are reconstructed from the
spec (section 3) and from every field access the Go sources perform.
-/

/-- QualifiedName of the spec: ordered identifier segments.  Embeds the
ObjectName proto message; the Idents field is the segment list. -/
structure ObjectName where
  idents : List String
deriving DecidableEq

/-- Modelled from the spec: ReferentialAction is a closed enumeration with
an explicit Unknown fallback (proto enum; zero value is Unknown). -/
inductive ReferentialAction where
  | unknown
  | cascade
  | setNull
  | setDefault
  | restrict
  | noAction
deriving DecidableEq

/-- Modelled from the spec: MatchOption is a closed enumeration with an
explicit Unknown fallback (proto enum; zero value is Unknown). -/
inductive MatchOption where
  | unknown
  | full
  | partial_
  | simple
deriving DecidableEq

/-- Modelled from the spec: the MySQL auto-increment decorator enum used
in the MyDecos list of a ColumnDef (zero value first). -/
inductive AutoIncrement where
  | autoIncrementUnknown
  | autoIncrementConfirm
deriving DecidableEq

/-- Modelled from the spec: the NotNull column constraint enum. -/
inductive NotNullColumnSpec where
  | notNullColumnSpecUnknown
  | notNullColumnSpecConfirm
deriving DecidableEq

/-- Modelled from the spec: the opaque envelope (google.protobuf.Any) that
holds default values and check expressions.  It is a tagged box that
currently only carries a string literal (wrapperspb.StringValue). -/
inductive AnyMsg where
  | stringValue (s : String)
deriving DecidableEq

mutual
/-- Modelled from the spec: the DataType closed variant of types.proto,
reconstructed from section 3 of the spec and from the constructions the
loaders perform (IntData, BigIntData, SmallIntData, FloatData,
BooleanData, TextData, ByteaData, TimestampData, ArrayData, StructData,
CustomData).  Array and Struct are recursive. -/
inductive DataType where
  | intData
  | bigIntData
  | smallIntData
  | decimalData (precision scale : Nat)
  | booleanData
  | textData
  | floatData
  | byteaData
  | timestampData (withTimeZone : Bool)
  | arrayData (elem : DataType)
  | structData (fields : StructFields)
  | customData (name : ObjectName)
deriving DecidableEq

/-- Ordered list of named struct fields of a DataType.structData, written
as an inline inductive list so that the mutual recursion with DataType is
structural. -/
inductive StructFields where
  | nil
  | cons (name : String) (t : DataType) (rest : StructFields)
deriving DecidableEq
end

/-- A Go map of type map of string to alpha, embedded as an association
list held in insertion order. -/
abbrev GoMap (α : Type) : Type := List (String × α)

/-- Insertion into a Go map: overwrite in place when the key is present,
append otherwise. -/
def goInsert {α : Type} (m : GoMap α) (k : String) (v : α) : GoMap α :=
  match m with
  | [] => [(k, v)]
  | p :: rest => if p.1 = k then (k, v) :: rest else p :: goInsert rest k v

/-- Lookup in a Go map. -/
def goLookup {α : Type} (m : GoMap α) (k : String) : Option α :=
  match m with
  | [] => none
  | p :: rest => if p.1 = k then some p.2 else goLookup rest k

/-- Insert a list of key-value pairs, in order, into a Go map. -/
def goInsertAll {α : Type} (m : GoMap α) (l : List (String × α)) : GoMap α :=
  l.foldl (fun acc p => goInsert acc p.1 p.2) m

/-- Modelled from the spec: the inline unique or primary-key column
constraint payload. -/
structure UniqueColumnSpec where
  isPrimaryKey : Bool
deriving DecidableEq

/-- Modelled from the spec: the oneof clause of a ColumnConstraint. -/
inductive ColumnConstraintSpec where
  | uniqueItem (u : UniqueColumnSpec)
  | notNullItem (n : NotNullColumnSpec)
deriving DecidableEq

/-- Modelled from the spec: ColumnConstraint carries an optional name and
a constraint spec (nil-able message field becomes Option). -/
structure ColumnConstraint where
  name : String
  spec : Option ColumnConstraintSpec
deriving DecidableEq

/-- Modelled from the spec: ColumnDef of types.proto.  The Default field
is a nil-able google.protobuf.Any; DataType is a nil-able message. -/
structure ColumnDef where
  name : String
  dataType : Option DataType
  default : Option AnyMsg
  comment : String
  options : GoMap String
  constraints : List ColumnConstraint
  myDecos : List AutoIncrement
deriving DecidableEq

/-- Modelled from the spec: the unique or primary-key table constraint
payload (UniqueTableConstraint). -/
structure UniqueTableConstraint where
  isPrimary : Bool
  columns : List String
  indexName : String
deriving DecidableEq

/-- Modelled from the spec: the foreign-table side of a referential
constraint (ReferenceKeyExpr). -/
structure ReferenceKeyExpr where
  tableName : String
  columns : List String
deriving DecidableEq

/-- Modelled from the spec: the referential (foreign key) table
constraint payload (ReferentialTableConstraint). -/
structure ReferentialTableConstraint where
  columns : List String
  keyExpr : Option ReferenceKeyExpr
  onUpdate : ReferentialAction
  onDelete : ReferentialAction
  matchOpt : MatchOption
deriving DecidableEq

/-- Modelled from the spec: the oneof clause of a TableConstraint spec:
unique or primary, check (opaque expression envelope), or reference. -/
inductive TableConstraintSpec where
  | uniqueItem (u : UniqueTableConstraint)
  | checkItem (e : Option AnyMsg)
  | referenceItem (r : ReferentialTableConstraint)
deriving DecidableEq

/-- Modelled from the spec: TableConstraint carries a name and a nil-able
spec message. -/
structure TableConstraint where
  name : String
  spec : Option TableConstraintSpec
deriving DecidableEq

/-- Modelled from the spec: TableElement is the oneof over a column
definition and a table constraint; unset covers an empty oneof. -/
inductive TableElement where
  | columnDefElement (c : ColumnDef)
  | tableConstraintElement (tc : TableConstraint)
  | unset
deriving DecidableEq

/-- Go getter GetColumnDefElement: nil unless the oneof holds a column. -/
def TableElement.getColumnDefElement : TableElement → Option ColumnDef
  | .columnDefElement c => some c
  | _ => none

/-- Go getter GetTableConstraintElement: nil unless the oneof holds a
table constraint. -/
def TableElement.getTableConstraintElement : TableElement → Option TableConstraint
  | .tableConstraintElement tc => some tc
  | _ => none

/-- Modelled from the spec: MetaTable of types.proto; Name is a nil-able
ObjectName, Options is a Go map. -/
structure MetaTable where
  name : Option ObjectName
  type : String
  comment : String
  options : GoMap String
  elements : List TableElement
deriving DecidableEq

/-- Modelled from the spec: MetaDatabase of types.proto. -/
structure MetaDatabase where
  name : String
  tables : List MetaTable
deriving DecidableEq

/-- The SchemaChange variants of diff_types.go, with the payload each Go
struct carries. -/
inductive SchemaChange where
  | addTable (table : MetaTable)
  | dropTable (tableName : Option ObjectName)
  | alterTableOptions (tableName : Option ObjectName) (oldOptions newOptions : GoMap String)
      (oldComment newComment : String)
  | addColumn (tableName : Option ObjectName) (column : ColumnDef)
  | dropColumn (tableName : Option ObjectName) (columnName : String)
  | alterColumn (tableName : Option ObjectName) (oldColumn newColumn : ColumnDef)
  | addConstraint (tableName : Option ObjectName) (constraint : TableConstraint)
  | dropConstraint (tableName : Option ObjectName) (constraintName : String) (isForeignKey : Bool)
deriving DecidableEq

/-- The Priority methods of diff_types.go. -/
def SchemaChange.priority : SchemaChange → Nat
  | .addTable _ => 40
  | .dropTable _ => 30
  | .alterTableOptions _ _ _ _ _ => 70
  | .addColumn _ _ => 50
  | .dropColumn _ _ => 20
  | .alterColumn _ _ _ => 70
  | .addConstraint _ _ => 60
  | .dropConstraint _ _ isForeignKey => if isForeignKey then 5 else 10

/-- The IsDestructive methods of diff_types.go. -/
def SchemaChange.isDestructive : SchemaChange → Bool
  | .addTable _ => false
  | .dropTable _ => true
  | .alterTableOptions _ _ _ _ _ => false
  | .addColumn _ _ => false
  | .dropColumn _ _ => true
  | .alterColumn _ _ _ => true
  | .addConstraint _ _ => false
  | .dropConstraint _ _ _ => false

/-- One run of the inner loop of SortChanges for a fixed outer index i:
x is the current value at position i, l holds the values at the positions
after i; whenever the value at i has larger priority than a later value
the two are swapped.  Returns the final value at position i together with
the final values of the later positions. -/
def selectPass (x : SchemaChange) (l : List SchemaChange) : SchemaChange × List SchemaChange :=
  match l with
  | [] => (x, [])
  | y :: ys =>
      if y.priority < x.priority then
        let p := selectPass y ys
        (p.1, x :: p.2)
      else
        let p := selectPass x ys
        (p.1, y :: p.2)

/-- The outer loop of SortChanges: fuel counts the remaining iterations
of the outer index i, which the Go code runs exactly length-many times. -/
def sortChangesAux : Nat → List SchemaChange → List SchemaChange
  | _, [] => []
  | 0, l => l
  | fuel + 1, x :: xs =>
      let p := selectPass x xs
      p.1 :: sortChangesAux fuel p.2

/-- SortChanges of diff_types.go: the exchange sort by priority, embedded
as a function returning the sorted slice. -/
def SortChanges (changes : List SchemaChange) : List SchemaChange :=
  sortChangesAux changes.length changes

/-- tableName of diff.go: the simple table name of a nil-able
ObjectName; nil or an empty identifier list yields the empty string. -/
def tableName (objName : Option ObjectName) : String :=
  match objName with
  | none => ""
  | some o =>
      match o.idents.getLast? with
      | none => ""
      | some s => s

/-- tablesByName of diff.go: index tables by simple name in a Go map. -/
def tablesByName (tables : List MetaTable) : GoMap MetaTable :=
  goInsertAll [] (tables.map fun t => (tableName t.name, t))

/-- columnsFromElements of diff.go: the columns of an element list,
keyed by column name. -/
def columnsFromElements (elems : List TableElement) : GoMap ColumnDef :=
  goInsertAll [] (elems.filterMap fun e => e.getColumnDefElement.map fun c => (c.name, c))

/-- constraintsFromElements of diff.go: the named constraints of an
element list, keyed by constraint name; unnamed constraints are skipped. -/
def constraintsFromElements (elems : List TableElement) : GoMap TableConstraint :=
  goInsertAll [] (elems.filterMap fun e =>
    match e.getTableConstraintElement with
    | some tc => if tc.name != "" then some (tc.name, tc) else none
    | none => none)

/-- mapsEqual of diff.go: two Go string maps are equal when they have the
same length and agree on every key of the first. -/
def mapsEqual (a b : GoMap String) : Bool :=
  a.length == b.length &&
    a.all fun p =>
      match goLookup b p.1 with
      | some bv => bv == p.2
      | none => false

/-- columnsEqual of diff.go: name, comment, DataType (proto deep
equality) and Default (proto deep equality) are compared; the constraint
list, the options map and the decorator list are not. -/
def columnsEqual (a b : ColumnDef) : Bool :=
  a.name == b.name && a.comment == b.comment &&
    a.dataType == b.dataType && a.default == b.default

/-- The nil test on GetReferenceItem of the constraint spec, as used by
diff.go: true exactly when the (nil-able) spec holds a ReferenceItem. -/
def isReferenceConstraint (tc : TableConstraint) : Bool :=
  match tc.spec with
  | some (.referenceItem _) => true
  | _ => false

/-- The first range loop of diffColumns of diff.go: a DropColumn for
every column key of the current map absent from the desired map. -/
def dropColumnPhase (tn : Option ObjectName) (current desired : GoMap ColumnDef) :
    List SchemaChange :=
  current.filterMap fun p =>
    match goLookup desired p.1 with
    | some _ => none
    | none => some (SchemaChange.dropColumn tn p.1)

/-- The second range loop of diffColumns of diff.go: an AddColumn for
every column of the desired map whose key is absent from the current
map. -/
def addColumnPhase (tn : Option ObjectName) (current desired : GoMap ColumnDef) :
    List SchemaChange :=
  desired.filterMap fun p =>
    match goLookup current p.1 with
    | some _ => none
    | none => some (SchemaChange.addColumn tn p.2)

/-- The third range loop of diffColumns of diff.go: an AlterColumn for
every key present on both sides whose two columns are not columnsEqual. -/
def alterColumnPhase (tn : Option ObjectName) (current desired : GoMap ColumnDef) :
    List SchemaChange :=
  desired.filterMap fun p =>
    match goLookup current p.1 with
    | some currCol =>
        if columnsEqual currCol p.2 then none
        else some (SchemaChange.alterColumn tn currCol p.2)
    | none => none

/-- diffColumns of diff.go: its three range loops in source order, each
folded in canonical map order. -/
def diffColumns (tn : Option ObjectName) (current desired : GoMap ColumnDef) :
    List SchemaChange :=
  dropColumnPhase tn current desired ++ addColumnPhase tn current desired ++
    alterColumnPhase tn current desired

/-- The first range loop of diffConstraints of diff.go: a DropConstraint
(with the foreign-key test on the current constraint) for every key of
the current map absent from the desired map. -/
def dropConstraintPhase (tn : Option ObjectName) (current desired : GoMap TableConstraint) :
    List SchemaChange :=
  current.filterMap fun p =>
    match goLookup desired p.1 with
    | some _ => none
    | none => some (SchemaChange.dropConstraint tn p.1 (isReferenceConstraint p.2))

/-- The second range loop of diffConstraints of diff.go: an AddConstraint
for every constraint of the desired map whose key is absent from the
current map. -/
def addConstraintPhase (tn : Option ObjectName) (current desired : GoMap TableConstraint) :
    List SchemaChange :=
  desired.filterMap fun p =>
    match goLookup current p.1 with
    | some _ => none
    | none => some (SchemaChange.addConstraint tn p.2)

/-- diffConstraints of diff.go: its two range loops in source order;
constraints present on both sides are never compared for content. -/
def diffConstraints (tn : Option ObjectName) (current desired : GoMap TableConstraint) :
    List SchemaChange :=
  dropConstraintPhase tn current desired ++ addConstraintPhase tn current desired

/-- diffTable of diff.go: table options and comment, then columns, then
constraints; every emitted change is tagged with the desired table name. -/
def diffTable (current desired : MetaTable) : List SchemaChange :=
  (if current.comment != desired.comment || !mapsEqual current.options desired.options then
    [SchemaChange.alterTableOptions desired.name current.options desired.options
      current.comment desired.comment]
  else []) ++
  diffColumns desired.name (columnsFromElements current.elements)
    (columnsFromElements desired.elements) ++
  diffConstraints desired.name (constraintsFromElements current.elements)
    (constraintsFromElements desired.elements)

/-- The changes DiffDatabase emits for a table present only in current:
one DropConstraint per table-constraint element (named or not), then the
DropTable. -/
def tableDropChanges (t : MetaTable) : List SchemaChange :=
  (t.elements.filterMap fun elem =>
    elem.getTableConstraintElement.map fun tc =>
      SchemaChange.dropConstraint t.name tc.name (isReferenceConstraint tc)) ++
  [SchemaChange.dropTable t.name]

/-- DiffDatabase of diff.go with the iteration order of its three map
range loops made explicit: ord1 is the order of the drop loop over the
current-table map, ord2 of the add loop and ord3 of the common loop over
the desired-table map.  Go randomizes map iteration order, so any
permutation of the map entries is a possible order for each loop. -/
def DiffDatabaseWith (current desired : MetaDatabase)
    (ord1 ord2 ord3 : List (String × MetaTable)) : List SchemaChange :=
  let currentTables := tablesByName current.tables
  let desiredTables := tablesByName desired.tables
  let dropChanges := ord1.flatMap fun p =>
    match goLookup desiredTables p.1 with
    | some _ => []
    | none => tableDropChanges p.2
  let addChanges := ord2.flatMap fun p =>
    match goLookup currentTables p.1 with
    | some _ => []
    | none => [SchemaChange.addTable p.2]
  let commonChanges := ord3.flatMap fun p =>
    match goLookup currentTables p.1 with
    | some currTable => diffTable currTable p.2
    | none => []
  SortChanges (dropChanges ++ addChanges ++ commonChanges)

/-- DiffDatabase of diff.go, run with the canonical (insertion) iteration
order for all three map loops. -/
def DiffDatabase (current desired : MetaDatabase) : List SchemaChange :=
  DiffDatabaseWith current desired (tablesByName current.tables)
    (tablesByName desired.tables) (tablesByName desired.tables)

/-- stringToAny of convert.go: the empty string packs to nil, any other
string packs to a StringValue inside the Any envelope (the error path of
anypb.New is unreachable for plain string packing). -/
def stringToAny (s : String) : Option AnyMsg :=
  if s == "" then none else some (AnyMsg.stringValue s)

/-- formatObjectName of convert.go: dot-join the identifier segments of a
nil-able ObjectName; nil yields the empty string. -/
def formatObjectName (o : Option ObjectName) : String :=
  match o with
  | none => ""
  | some o => String.intercalate "." o.idents

/-- mapReferentialAction of convert.go. -/
def mapReferentialAction (s : String) : ReferentialAction :=
  match s.toUpper with
  | "CASCADE" => .cascade
  | "SET NULL" => .setNull
  | "SET DEFAULT" => .setDefault
  | "RESTRICT" => .restrict
  | "NO ACTION" => .noAction
  | _ => .unknown

/-- mapMatchOption of convert.go. -/
def mapMatchOption (s : String) : MatchOption :=
  match s.toUpper with
  | "FULL" => .full
  | "PARTIAL" => .partial_
  | "SIMPLE" => .simple
  | _ => .unknown

/-- Modelled from the spec: the PostgreSQL column message, with the
fields the Go sources access. -/
structure PGColumn where
  name : String
  dataType : Option DataType
  defaultValue : String
  comment : String
  isIdentity : Bool
  identityGeneration : String
  isGenerated : Bool
  generationExpression : String
  identitySequence : String
  isPrimaryKey : Bool
  isNullable : Bool
  ordinalPosition : Int
deriving DecidableEq

/-- Modelled from the spec: the PostgreSQL table constraint message; Type
is the pg_constraint contype letter. -/
structure PGConstraint where
  name : String
  type : String
  columns : List String
  definition : String
deriving DecidableEq

/-- Modelled from the spec: the PostgreSQL foreign-key message. -/
structure PGForeignKey where
  name : String
  localColumns : List String
  foreignTable : Option ObjectName
  foreignColumns : List String
  onUpdate : String
  onDelete : String
  matchOption : String
deriving DecidableEq

/-- Modelled from the spec: the PostgreSQL index message, with the flags
the conversion layer reads. -/
structure PGIndex where
  name : String
  isPrimary : Bool
  isUnique : Bool
  columns : List String
deriving DecidableEq

/-- Modelled from the spec: the PostgreSQL table message. -/
structure PGTable where
  name : Option ObjectName
  tableType : String
  comment : String
  owner : String
  persistence : String
  hasRowSecurity : Bool
  rowSecurityForced : Bool
  columns : List PGColumn
  constraints : List PGConstraint
  foreignKeys : List PGForeignKey
  indexes : List PGIndex
deriving DecidableEq

/-- The non-nil body of PGColumnToColumnDef of convert.go. -/
def pgColumnToColumnDef (c : PGColumn) : ColumnDef :=
  let o0 : GoMap String := []
  let o1 := if c.isIdentity then
      goInsert (goInsert o0 "IsIdentity" "true") "IdentityGeneration" c.identityGeneration
    else o0
  let o2 := if c.isGenerated then
      goInsert (goInsert o1 "IsGenerated" "true") "GenerationExpression" c.generationExpression
    else o1
  let o3 := if c.identitySequence != "" then
      goInsert o2 "IdentitySequence" c.identitySequence
    else o2
  { name := c.name
    dataType := c.dataType
    default := stringToAny c.defaultValue
    comment := c.comment
    options := o3
    constraints :=
      (if c.isPrimaryKey then
        [{ name := "PRIMARY KEY"
           spec := some (.uniqueItem { isPrimaryKey := true }) }]
      else []) ++
      (if !c.isNullable then
        [{ name := ""
           spec := some (.notNullItem .notNullColumnSpecConfirm) }]
      else [])
    myDecos := [] }

/-- PGColumnToColumnDef of convert.go: nil input yields nil. -/
def PGColumnToColumnDef (c : Option PGColumn) : Option ColumnDef :=
  match c with
  | none => none
  | some c => some (pgColumnToColumnDef c)

/-- PGConstraintToTableConstraint of convert.go: primary key, unique and
check constraints convert; any other contype yields nil. -/
def PGConstraintToTableConstraint (c : Option PGConstraint) : Option TableConstraint :=
  match c with
  | none => none
  | some c =>
      match c.type with
      | "p" => some { name := c.name
                      spec := some (.uniqueItem
                        { isPrimary := true, columns := c.columns, indexName := "" }) }
      | "u" => some { name := c.name
                      spec := some (.uniqueItem
                        { isPrimary := false, columns := c.columns, indexName := "" }) }
      | "c" => some { name := c.name
                      spec := some (.checkItem (stringToAny c.definition)) }
      | _ => none

/-- PGForeignKeyToTableConstraint of convert.go: nil input yields nil. -/
def PGForeignKeyToTableConstraint (fk : Option PGForeignKey) : Option TableConstraint :=
  match fk with
  | none => none
  | some fk =>
      some { name := fk.name
             spec := some (.referenceItem
               { columns := fk.localColumns
                 keyExpr := some { tableName := formatObjectName fk.foreignTable
                                   columns := fk.foreignColumns }
                 onUpdate := mapReferentialAction fk.onUpdate
                 onDelete := mapReferentialAction fk.onDelete
                 matchOpt := mapMatchOption fk.matchOption }) }

/-- PGTableToMetaTable of convert.go: nil input yields nil; otherwise the
element list is the columns in source order, then the convertible
non-foreign-key constraints, then the foreign keys; the loop over the
primary or unique indexes has an empty body and emits nothing. -/
def PGTableToMetaTable (t : Option PGTable) : Option MetaTable :=
  match t with
  | none => none
  | some t =>
      let o0 : GoMap String := []
      let o1 := if t.owner != "" then goInsert o0 "Owner" t.owner else o0
      let o2 := if t.persistence != "" then goInsert o1 "Persistence" t.persistence else o1
      let o3 := if t.hasRowSecurity then goInsert o2 "HasRowSecurity" "true" else o2
      let o4 := if t.rowSecurityForced then goInsert o3 "RowSecurityForced" "true" else o3
      some { name := t.name
             type := t.tableType
             comment := t.comment
             options := o4
             elements :=
               (t.columns.map fun col =>
                 TableElement.columnDefElement (pgColumnToColumnDef col)) ++
               (t.constraints.filterMap fun con =>
                 (PGConstraintToTableConstraint (some con)).map
                   TableElement.tableConstraintElement) ++
               (t.foreignKeys.filterMap fun fk =>
                 (PGForeignKeyToTableConstraint (some fk)).map
                   TableElement.tableConstraintElement) ++
               (t.indexes.flatMap fun idx =>
                 if idx.isPrimary || idx.isUnique then [] else []) }

/-- Modelled from the spec: the MySQL column message, with the fields the
Go sources access. -/
structure MYColumn where
  name : String
  dataType : Option DataType
  defaultValue : String
  comment : String
  charset : String
  collation : String
  isUnsigned : Bool
  isPrimaryKey : Bool
  autoIncrement : Bool
  isNullable : Bool
deriving DecidableEq

/-- Modelled from the spec: the MySQL foreign-key message. -/
structure MYForeignKey where
  name : String
  localColumns : List String
  foreignTable : Option ObjectName
  foreignColumns : List String
  onUpdate : String
  onDelete : String
deriving DecidableEq

/-- Modelled from the spec: the MySQL index message. -/
structure MYIndex where
  name : String
  isUnique : Bool
  indexType : String
  columns : List String
deriving DecidableEq

/-- Modelled from the spec: the MySQL table message. -/
structure MYTable where
  name : Option ObjectName
  comment : String
  engine : String
  charset : String
  collation : String
  columns : List MYColumn
  foreignKeys : List MYForeignKey
  indexes : List MYIndex
deriving DecidableEq

/-- The non-nil body of MYColumnToColumnDef of convert.go. -/
def myColumnToColumnDef (c : MYColumn) : ColumnDef :=
  let o0 : GoMap String := []
  let o1 := if c.charset != "" then goInsert o0 "Charset" c.charset else o0
  let o2 := if c.collation != "" then goInsert o1 "Collation" c.collation else o1
  let o3 := if c.isUnsigned then goInsert o2 "IsUnsigned" "true" else o2
  { name := c.name
    dataType := c.dataType
    default := stringToAny c.defaultValue
    comment := c.comment
    options := o3
    constraints :=
      (if c.isPrimaryKey then
        [{ name := "PRIMARY KEY"
           spec := some (.uniqueItem { isPrimaryKey := true }) }]
      else []) ++
      (if !c.isNullable then
        [{ name := ""
           spec := some (.notNullItem .notNullColumnSpecConfirm) }]
      else [])
    myDecos := if c.autoIncrement then [AutoIncrement.autoIncrementConfirm] else [] }

/-- MYColumnToColumnDef of convert.go: nil input yields nil. -/
def MYColumnToColumnDef (c : Option MYColumn) : Option ColumnDef :=
  match c with
  | none => none
  | some c => some (myColumnToColumnDef c)

/-- MYForeignKeyToTableConstraint of convert.go: nil input yields nil;
the match option is never set and stays at the proto zero value. -/
def MYForeignKeyToTableConstraint (fk : Option MYForeignKey) : Option TableConstraint :=
  match fk with
  | none => none
  | some fk =>
      some { name := fk.name
             spec := some (.referenceItem
               { columns := fk.localColumns
                 keyExpr := some { tableName := formatObjectName fk.foreignTable
                                   columns := fk.foreignColumns }
                 onUpdate := mapReferentialAction fk.onUpdate
                 onDelete := mapReferentialAction fk.onDelete
                 matchOpt := .unknown }) }

/-- MYIndexToTableConstraint of convert.go: nil yields nil; an index that
is neither named PRIMARY (MySQL convention) nor unique yields nil; the
rest promote to a unique table constraint. -/
def MYIndexToTableConstraint (idx : Option MYIndex) : Option TableConstraint :=
  match idx with
  | none => none
  | some idx =>
      let isPrimary := idx.name.toUpper == "PRIMARY"
      if !isPrimary && !idx.isUnique then none
      else
        some { name := idx.name
               spec := some (.uniqueItem
                 { isPrimary := isPrimary, columns := idx.columns, indexName := idx.name }) }

/-- MYTableToMetaTable of convert.go: nil input yields nil; otherwise the
element list is the columns in source order, then the foreign keys, then
the promoted unique or primary indexes. -/
def MYTableToMetaTable (t : Option MYTable) : Option MetaTable :=
  match t with
  | none => none
  | some t =>
      let o0 : GoMap String := []
      let o1 := if t.engine != "" then goInsert o0 "Engine" t.engine else o0
      let o2 := if t.charset != "" then goInsert o1 "Charset" t.charset else o1
      let o3 := if t.collation != "" then goInsert o2 "Collation" t.collation else o2
      some { name := t.name
             type := ""
             comment := t.comment
             options := o3
             elements :=
               (t.columns.map fun col =>
                 TableElement.columnDefElement (myColumnToColumnDef col)) ++
               (t.foreignKeys.filterMap fun fk =>
                 (MYForeignKeyToTableConstraint (some fk)).map
                   TableElement.tableConstraintElement) ++
               (t.indexes.flatMap fun idx =>
                 if idx.isUnique || idx.indexType.toUpper == "PRIMARY" then
                   match MYIndexToTableConstraint (some idx) with
                   | some tc => [TableElement.tableConstraintElement tc]
                   | none => []
                 else []) }

/-- Modelled from the spec: the SQLite column message. -/
structure SQLiteColumn where
  name : String
  dataType : Option DataType
  defaultValue : String
  isPrimaryKey : Bool
  isNullable : Bool
deriving DecidableEq

/-- Modelled from the spec: the SQLite table message; the name is a plain
string. -/
structure SQLiteTable where
  name : String
  type : String
  definition : String
  columns : List SQLiteColumn
deriving DecidableEq

/-- The non-nil body of SQLiteColumnToColumnDef of convert.go. -/
def sqliteColumnToColumnDef (c : SQLiteColumn) : ColumnDef :=
  { name := c.name
    dataType := c.dataType
    default := stringToAny c.defaultValue
    comment := ""
    options := []
    constraints :=
      (if c.isPrimaryKey then
        [{ name := "PRIMARY KEY"
           spec := some (.uniqueItem { isPrimaryKey := true }) }]
      else []) ++
      (if !c.isNullable then
        [{ name := ""
           spec := some (.notNullItem .notNullColumnSpecConfirm) }]
      else [])
    myDecos := [] }

/-- SQLiteColumnToColumnDef of convert.go: nil input yields nil. -/
def SQLiteColumnToColumnDef (c : Option SQLiteColumn) : Option ColumnDef :=
  match c with
  | none => none
  | some c => some (sqliteColumnToColumnDef c)

/-- SQLiteTableToMetaTable of convert.go: nil input yields nil; the meta
name wraps the plain string name in a one-segment ObjectName and the
elements are the columns in source order. -/
def SQLiteTableToMetaTable (t : Option SQLiteTable) : Option MetaTable :=
  match t with
  | none => none
  | some t =>
      some { name := some { idents := [t.name] }
             type := t.type
             comment := ""
             options := []
             elements := t.columns.map fun col =>
               TableElement.columnDefElement (sqliteColumnToColumnDef col) }

/-- Modelled from the spec: the BigQuery column message. -/
structure BQColumn where
  name : String
  mode : String
  description : String
  dataType : Option DataType
deriving DecidableEq

/-- Modelled from the spec: the BigQuery table message, with the fields
the conversion layer reads. -/
structure BQTable where
  name : Option ObjectName
  type : String
  numRows : Int
  totalBytes : Int
  description : String
  labels : GoMap String
  schema : List BQColumn
  viewQuery : String
deriving DecidableEq

/-- The non-nil body of BQColumnToColumnDef of convert.go: a REQUIRED
mode becomes a NotNull column constraint. -/
def bqColumnToColumnDef (c : BQColumn) : ColumnDef :=
  { name := c.name
    dataType := c.dataType
    default := none
    comment := c.description
    options := []
    constraints :=
      if c.mode.toUpper == "REQUIRED" then
        [{ name := ""
           spec := some (.notNullItem .notNullColumnSpecConfirm) }]
      else []
    myDecos := [] }

/-- BQColumnToColumnDef of convert.go: nil input yields nil. -/
def BQColumnToColumnDef (c : Option BQColumn) : Option ColumnDef :=
  match c with
  | none => none
  | some c => some (bqColumnToColumnDef c)

/-- BQTableToMetaTable of convert.go: nil input yields nil; the elements
are the schema columns in source order. -/
def BQTableToMetaTable (t : Option BQTable) : Option MetaTable :=
  match t with
  | none => none
  | some t =>
      some { name := t.name
             type := ""
             comment := t.description
             options := []
             elements := t.schema.map fun col =>
               TableElement.columnDefElement (bqColumnToColumnDef col) }

/-- A key that is present in a Go map looks up to some value. -/
theorem goLookup_isSome_of_mem {α : Type} {m : GoMap α} {k : String} {v : α}
    (h : (k, v) ∈ m) : ∃ w, goLookup m k = some w := by
  induction m with
  | nil => cases h
  | cons p rest ih =>
      by_cases hk : p.1 = k
      · exact ⟨p.2, by simp [goLookup, hk]⟩
      · rcases List.mem_cons.1 h with h | h
        · cases h; exact absurd rfl hk
        · rcases ih h with ⟨w, hw⟩
          exact ⟨w, by simp [goLookup, hk, hw]⟩

/-- A successful lookup comes from an entry of the map. -/
theorem mem_of_goLookup_eq_some {α : Type} {m : GoMap α} {k : String} {v : α}
    (h : goLookup m k = some v) : (k, v) ∈ m := by
  induction m with
  | nil => simp [goLookup] at h
  | cons p rest ih =>
      obtain ⟨p1, p2⟩ := p
      by_cases hk : p1 = k
      · have h2 : p2 = v := by simpa [goLookup, hk] using h
        rw [← hk, ← h2]
        exact List.mem_cons_self _ _
      · have h2 : goLookup rest k = some v := by simpa [goLookup, hk] using h
        exact List.mem_cons_of_mem _ (ih h2)

/-- A key that looks up to nothing is absent from the map. -/
theorem not_mem_of_goLookup_eq_none {α : Type} {m : GoMap α} {k : String} {v : α}
    (h : goLookup m k = none) : (k, v) ∉ m := by
  intro hm
  rcases goLookup_isSome_of_mem hm with ⟨w, hw⟩
  rw [hw] at h
  cases h

/-- Every entry of an insertion result is an old entry or the inserted
pair. -/
theorem mem_goInsert {α : Type} {m : GoMap α} {k : String} {v : α} {p : String × α}
    (h : p ∈ goInsert m k v) : p ∈ m ∨ p = (k, v) := by
  induction m with
  | nil => simp [goInsert] at h; right; exact h
  | cons q rest ih =>
      by_cases hk : q.1 = k
      · simp [goInsert, hk] at h
        rcases h with h | h
        · right; exact h
        · left; exact List.mem_cons_of_mem _ h
      · simp [goInsert, hk] at h
        rcases h with h | h
        · left; exact List.mem_cons.2 (Or.inl h)
        · rcases ih h with h | h
          · left; exact List.mem_cons_of_mem _ h
          · right; exact h

/-- Every entry of goInsertAll is an old entry or one of the inserted
pairs. -/
theorem mem_goInsertAll {α : Type} {l : List (String × α)} {m : GoMap α} {p : String × α}
    (h : p ∈ goInsertAll m l) : p ∈ m ∨ p ∈ l := by
  induction l generalizing m with
  | nil => exact Or.inl h
  | cons q rest ih =>
      rcases ih (by simpa [goInsertAll] using h) with h | h
      · rcases mem_goInsert h with h | h
        · exact Or.inl h
        · exact Or.inr (h ▸ List.mem_cons_self q rest)
      · exact Or.inr (List.mem_cons_of_mem _ h)

/-- The keys of an insertion result are the old keys plus the inserted
key. -/
theorem mem_keys_goInsert {α : Type} {m : GoMap α} {k a : String} {v : α}
    (h : a ∈ (goInsert m k v).map Prod.fst) : a ∈ m.map Prod.fst ∨ a = k := by
  rcases List.mem_map.1 h with ⟨p, hp, rfl⟩
  rcases mem_goInsert hp with h | h
  · exact Or.inl (List.mem_map_of_mem _ h)
  · right; rw [h]

/-- Insertion preserves distinctness of the keys. -/
theorem keys_nodup_goInsert {α : Type} {m : GoMap α} {k : String} {v : α}
    (h : (m.map Prod.fst).Nodup) : ((goInsert m k v).map Prod.fst).Nodup := by
  induction m with
  | nil => simp [goInsert]
  | cons q rest ih =>
      obtain ⟨q1, q2⟩ := q
      by_cases hk : q1 = k
      · subst hk
        simpa [goInsert] using h
      · rw [show goInsert ((q1, q2) :: rest) k v = (q1, q2) :: goInsert rest k v from by
          simp [goInsert, hk]]
        simp only [List.map_cons, List.nodup_cons] at h ⊢
        refine ⟨?_, ih h.2⟩
        intro hmem
        rcases mem_keys_goInsert hmem with hmem | hmem
        · exact h.1 hmem
        · exact hk hmem

/-- goInsertAll preserves distinctness of the keys. -/
theorem keys_nodup_goInsertAll {α : Type} {l : List (String × α)} {m : GoMap α}
    (h : (m.map Prod.fst).Nodup) : ((goInsertAll m l).map Prod.fst).Nodup := by
  induction l generalizing m with
  | nil => exact h
  | cons q rest ih => exact ih (keys_nodup_goInsert h)

/-- In a map with distinct keys, a present entry is what lookup finds. -/
theorem goLookup_eq_some_of_mem_nodup {α : Type} {m : GoMap α} {k : String} {v : α}
    (hnd : (m.map Prod.fst).Nodup) (h : (k, v) ∈ m) : goLookup m k = some v := by
  induction m with
  | nil => cases h
  | cons p rest ih =>
      simp only [List.map_cons, List.nodup_cons] at hnd
      rcases List.mem_cons.1 h with h | h
      · cases h; simp [goLookup]
      · have hk : p.1 ≠ k := by
          intro hk
          exact hnd.1 (hk ▸ List.mem_map_of_mem Prod.fst h)
        simp [goLookup, hk, ih hnd.2 h]

/-- Inserting a fresh key appends the pair. -/
theorem goInsert_of_not_mem_keys {α : Type} {m : GoMap α} {k : String} {v : α}
    (h : k ∉ m.map Prod.fst) : goInsert m k v = m ++ [(k, v)] := by
  induction m with
  | nil => simp [goInsert]
  | cons p rest ih =>
      simp only [List.map_cons, List.mem_cons] at h
      push_neg at h
      have hk : p.1 ≠ k := fun hh => h.1 hh.symm
      simp [goInsert, hk, ih h.2]

/-- Inserting pairs with distinct keys, all fresh for the map, appends
them in order. -/
theorem goInsertAll_of_fresh {α : Type} {l : List (String × α)} {m : GoMap α}
    (hnd : (l.map Prod.fst).Nodup)
    (hfresh : ∀ a ∈ l.map Prod.fst, a ∉ m.map Prod.fst) :
    goInsertAll m l = m ++ l := by
  induction l generalizing m with
  | nil => simp [goInsertAll]
  | cons p rest ih =>
      simp only [List.map_cons, List.nodup_cons] at hnd
      have hp : p.1 ∉ m.map Prod.fst := hfresh p.1 (by simp)
      have step : goInsertAll m (p :: rest) = goInsertAll (goInsert m p.1 p.2) rest := rfl
      rw [step, goInsert_of_not_mem_keys hp]
      have : goInsertAll (m ++ [p]) rest = (m ++ [p]) ++ rest := by
        refine ih hnd.2 ?_
        intro a ha hmem
        rw [List.map_append, List.mem_append] at hmem
        rcases hmem with hmem | hmem
        · exact hfresh a (by simp [ha]) hmem
        · simp at hmem
          rw [← hmem] at hnd
          exact hnd.1 ha
      rw [this, List.append_assoc]
      rfl

/-- With distinct simple names, tablesByName is the list of
name-to-table pairs in source order. -/
theorem tablesByName_of_nodup {tables : List MetaTable}
    (h : (tables.map fun t => tableName t.name).Nodup) :
    tablesByName tables = tables.map fun t => (tableName t.name, t) := by
  have := goInsertAll_of_fresh (l := tables.map fun t => (tableName t.name, t))
    (m := []) (by simpa [List.map_map, Function.comp] using h) (by simp)
  simpa [tablesByName] using this

/-- The inner loop of the exchange sort preserves the number of later
positions. -/
theorem selectPass_length (x : SchemaChange) (l : List SchemaChange) :
    (selectPass x l).2.length = l.length := by
  induction l generalizing x with
  | nil => rfl
  | cons y ys ih =>
      by_cases h : y.priority < x.priority <;> simp [selectPass, h, ih]

/-- The inner loop of the exchange sort permutes the values it touches. -/
theorem selectPass_perm (x : SchemaChange) (l : List SchemaChange) :
    List.Perm ((selectPass x l).1 :: (selectPass x l).2) (x :: l) := by
  induction l generalizing x with
  | nil => rfl
  | cons y ys ih =>
      by_cases h : y.priority < x.priority
      · simp only [selectPass, h, if_pos]
        exact (List.Perm.swap x (selectPass y ys).1 (selectPass y ys).2).trans
          ((ih y).cons x)
      · simp only [selectPass, h, if_neg, not_false_iff]
        exact (List.Perm.swap y (selectPass x ys).1 (selectPass x ys).2).trans
          (((ih x).cons y).trans (List.Perm.swap x y ys))

/-- The value the inner loop leaves at position i is no larger than the
value it started with. -/
theorem selectPass_fst_le (x : SchemaChange) (l : List SchemaChange) :
    (selectPass x l).1.priority ≤ x.priority := by
  induction l generalizing x with
  | nil => exact le_refl _
  | cons y ys ih =>
      by_cases h : y.priority < x.priority
      · simp only [selectPass, h, if_pos]
        exact le_trans (ih y) (le_of_lt h)
      · simp only [selectPass, h, if_neg, not_false_iff]
        exact ih x

/-- The value the inner loop leaves at position i is a minimum of the
values it leaves at the later positions. -/
theorem selectPass_min (x : SchemaChange) (l : List SchemaChange) :
    ∀ y ∈ (selectPass x l).2, (selectPass x l).1.priority ≤ y.priority := by
  induction l generalizing x with
  | nil => intro y hy; cases hy
  | cons y ys ih =>
      by_cases h : y.priority < x.priority
      · simp only [selectPass, h, if_pos]
        intro z hz
        rcases List.mem_cons.1 hz with hz | hz
        · subst hz
          exact le_trans (selectPass_fst_le y ys) (le_of_lt h)
        · exact ih y z hz
      · simp only [selectPass, h, if_neg, not_false_iff]
        intro z hz
        rcases List.mem_cons.1 hz with hz | hz
        · subst hz
          exact le_trans (selectPass_fst_le x ys) (le_of_not_lt h)
        · exact ih x z hz

/-- The exchange sort permutes its input. -/
theorem sortChangesAux_perm : ∀ (fuel : Nat) (l : List SchemaChange),
    List.Perm (sortChangesAux fuel l) l := by
  intro fuel
  induction fuel with
  | zero => intro l; cases l <;> exact List.Perm.refl _
  | succ n ih =>
      intro l
      cases l with
      | nil => exact List.Perm.refl _
      | cons x xs =>
          have h1 : List.Perm (sortChangesAux n (selectPass x xs).2) (selectPass x xs).2 :=
            ih _
          exact (h1.cons (selectPass x xs).1).trans (selectPass_perm x xs)

/-- With enough fuel the exchange sort output is sorted ascending by
priority. -/
theorem sortChangesAux_sorted : ∀ (fuel : Nat) (l : List SchemaChange),
    l.length ≤ fuel →
    (sortChangesAux fuel l).Pairwise fun a b => a.priority ≤ b.priority := by
  intro fuel
  induction fuel with
  | zero =>
      intro l hl
      have : l = [] := List.eq_nil_of_length_eq_zero (Nat.le_zero.1 hl)
      subst this
      exact List.Pairwise.nil
  | succ n ih =>
      intro l hl
      cases l with
      | nil => exact List.Pairwise.nil
      | cons x xs =>
          have hlen : (selectPass x xs).2.length ≤ n := by
            rw [selectPass_length]
            exact Nat.le_of_succ_le_succ hl
          refine List.pairwise_cons.2 ⟨?_, ih _ hlen⟩
          intro z hz
          have hz2 : z ∈ (selectPass x xs).2 :=
            ((sortChangesAux_perm n _).mem_iff).1 hz
          exact selectPass_min x xs z hz2

/-- SortChanges permutes its input. -/
theorem SortChanges_perm (l : List SchemaChange) : List.Perm (SortChanges l) l :=
  sortChangesAux_perm l.length l

/-- SortChanges sorts ascending by priority. -/
theorem SortChanges_sorted (l : List SchemaChange) :
    (SortChanges l).Pairwise fun a b => a.priority ≤ b.priority :=
  sortChangesAux_sorted l.length l (le_refl _)

/-- A Go string map with distinct keys is mapsEqual to itself. -/
theorem mapsEqual_refl {m : GoMap String} (h : (m.map Prod.fst).Nodup) :
    mapsEqual m m = true := by
  simp only [mapsEqual, Bool.and_eq_true, beq_self_eq_true, List.all_eq_true, true_and]
  intro p hp
  rw [goLookup_eq_some_of_mem_nodup h hp]
  simp

/-- Every column is columnsEqual to itself. -/
theorem columnsEqual_self (c : ColumnDef) : columnsEqual c c = true := by
  simp [columnsEqual]

/-- The column maps built from an element list have distinct keys. -/
theorem columnsFromElements_keys_nodup (elems : List TableElement) :
    ((columnsFromElements elems).map Prod.fst).Nodup :=
  keys_nodup_goInsertAll (by simp)

/-- The constraint maps built from an element list have distinct keys. -/
theorem constraintsFromElements_keys_nodup (elems : List TableElement) :
    ((constraintsFromElements elems).map Prod.fst).Nodup :=
  keys_nodup_goInsertAll (by simp)

/-- The table maps built by tablesByName have distinct keys. -/
theorem tablesByName_keys_nodup (tables : List MetaTable) :
    ((tablesByName tables).map Prod.fst).Nodup :=
  keys_nodup_goInsertAll (by simp)

/-- Diffing a column map against itself emits nothing when its keys are
distinct. -/
theorem diffColumns_self (tn : Option ObjectName) (C : GoMap ColumnDef)
    (h : (C.map Prod.fst).Nodup) : diffColumns tn C C = [] := by
  have h1 : ∀ p ∈ C, ∃ w, goLookup C p.1 = some w := by
    intro p hp
    exact goLookup_isSome_of_mem (by rw [show ((p.1 : String), p.2) = p from rfl]; exact hp)
  have e1 : dropColumnPhase tn C C = [] := by
    rw [dropColumnPhase, List.filterMap_eq_nil_iff]
    intro p hp
    rcases h1 p hp with ⟨w, hw⟩
    simp [hw]
  have e2 : addColumnPhase tn C C = [] := by
    rw [addColumnPhase, List.filterMap_eq_nil_iff]
    intro p hp
    rcases h1 p hp with ⟨w, hw⟩
    simp [hw]
  have e3 : alterColumnPhase tn C C = [] := by
    rw [alterColumnPhase, List.filterMap_eq_nil_iff]
    intro p hp
    have hw : goLookup C p.1 = some p.2 := by
      apply goLookup_eq_some_of_mem_nodup h
      rw [show ((p.1 : String), p.2) = p from rfl]
      exact hp
    simp [hw, columnsEqual_self]
  rw [diffColumns, e1, e2, e3]
  rfl

/-- Diffing a constraint map against itself emits nothing. -/
theorem diffConstraints_self (tn : Option ObjectName) (K : GoMap TableConstraint) :
    diffConstraints tn K K = [] := by
  have h1 : ∀ p ∈ K, ∃ w, goLookup K p.1 = some w := by
    intro p hp
    exact goLookup_isSome_of_mem (by rw [show ((p.1 : String), p.2) = p from rfl]; exact hp)
  have e1 : dropConstraintPhase tn K K = [] := by
    rw [dropConstraintPhase, List.filterMap_eq_nil_iff]
    intro p hp
    rcases h1 p hp with ⟨w, hw⟩
    simp [hw]
  have e2 : addConstraintPhase tn K K = [] := by
    rw [addConstraintPhase, List.filterMap_eq_nil_iff]
    intro p hp
    rcases h1 p hp with ⟨w, hw⟩
    simp [hw]
  rw [diffConstraints, e1, e2]
  rfl

/-- Diffing a table against itself emits nothing when its options map has
distinct keys. -/
theorem diffTable_self (t : MetaTable) (h : (t.options.map Prod.fst).Nodup) :
    diffTable t t = [] := by
  simp [diffTable, mapsEqual_refl h, diffColumns_self _ _ (columnsFromElements_keys_nodup _),
    diffConstraints_self]

/-- Well-formedness of a snapshot for the purposes of the diff engine: a
Go map never holds a key twice, so every options map of a decoded or
converted snapshot has distinct keys. -/
def WellFormedDatabase (db : MetaDatabase) : Prop :=
  ∀ t ∈ db.tables, ((t.options.map Prod.fst).Nodup)

instance (db : MetaDatabase) : Decidable (WellFormedDatabase db) := by
  unfold WellFormedDatabase
  infer_instance

/-- Every entry of a tablesByName map pairs the simple name of a source
table with that table. -/
theorem mem_tablesByName {tables : List MetaTable} {p : String × MetaTable}
    (hp : p ∈ tablesByName tables) : p.2 ∈ tables ∧ p.1 = tableName p.2.name := by
  rcases mem_goInsertAll hp with h | h
  · cases h
  · rcases List.mem_map.1 h with ⟨t, ht, hpt⟩
    rw [← hpt]
    exact ⟨ht, rfl⟩

/-- Claim C1: for every well-formed canonical database snapshot X,
DiffDatabase applied to X and X returns the empty change list. -/
theorem DiffDatabase_self_eq_nil (X : MetaDatabase) (hwf : WellFormedDatabase X) :
    DiffDatabase X X = [] := by
  have hnd : ((tablesByName X.tables).map Prod.fst).Nodup := tablesByName_keys_nodup X.tables
  have hself : ∀ p ∈ tablesByName X.tables,
      goLookup (tablesByName X.tables) p.1 = some p.2 := by
    intro p hp
    apply goLookup_eq_some_of_mem_nodup hnd
    rw [show ((p.1 : String), p.2) = p from rfl]
    exact hp
  have e1 : ((tablesByName X.tables).flatMap fun p =>
      match goLookup (tablesByName X.tables) p.1 with
      | some _ => []
      | none => tableDropChanges p.2) = [] := by
    rw [List.flatMap_eq_nil_iff]
    intro p hp
    rw [hself p hp]
  have e2 : ((tablesByName X.tables).flatMap fun p =>
      match goLookup (tablesByName X.tables) p.1 with
      | some _ => []
      | none => [SchemaChange.addTable p.2]) = [] := by
    rw [List.flatMap_eq_nil_iff]
    intro p hp
    rw [hself p hp]
  have e3 : ((tablesByName X.tables).flatMap fun p =>
      match goLookup (tablesByName X.tables) p.1 with
      | some currTable => diffTable currTable p.2
      | none => []) = [] := by
    rw [List.flatMap_eq_nil_iff]
    intro p hp
    rw [hself p hp]
    exact diffTable_self p.2 (hwf p.2 (mem_tablesByName hp).1)
  show SortChanges
      (((tablesByName X.tables).flatMap fun p =>
          match goLookup (tablesByName X.tables) p.1 with
          | some _ => []
          | none => tableDropChanges p.2) ++
        ((tablesByName X.tables).flatMap fun p =>
          match goLookup (tablesByName X.tables) p.1 with
          | some _ => []
          | none => [SchemaChange.addTable p.2]) ++
        ((tablesByName X.tables).flatMap fun p =>
          match goLookup (tablesByName X.tables) p.1 with
          | some currTable => diffTable currTable p.2
          | none => [])) = []
  rw [e1, e2, e3]
  rfl

/-- A concrete well-formed snapshot used to witness the C1 theorem. -/
def c1Snapshot : MetaDatabase :=
  { name := "testdb"
    tables := [{ name := some { idents := ["users"] }
                 type := "BASE TABLE"
                 comment := "people"
                 options := [("Owner", "admin")]
                 elements := [TableElement.columnDefElement
                   { name := "id", dataType := some DataType.intData, default := none
                     comment := "", options := [], constraints := [], myDecos := [] }] }] }

/-- Witness for C1: the theorem applied to a concrete well-formed
snapshot. -/
theorem DiffDatabase_self_eq_nil_witness : DiffDatabase c1Snapshot c1Snapshot = [] :=
  DiffDatabase_self_eq_nil c1Snapshot (by decide)

/-- Claim C3: for every pair of snapshots and for every possible map
iteration order, the list DiffDatabase returns is sorted ascending by the
Priority value of each change. -/
theorem DiffDatabase_sorted_by_priority (cur des : MetaDatabase)
    (o1 o2 o3 : List (String × MetaTable)) :
    ((DiffDatabaseWith cur des o1 o2 o3).Pairwise fun a b => a.priority ≤ b.priority)
    ∧ ((DiffDatabase cur des).Pairwise fun a b => a.priority ≤ b.priority) :=
  ⟨SortChanges_sorted _, SortChanges_sorted _⟩

/-- Claim C5: the priority and destructiveness of every SchemaChange
variant equal the fixed table of diff_types.go. -/
theorem schemaChange_priority_destructive_table :
    ∀ (tn : Option ObjectName) (cn : String) (tbl : MetaTable) (col oldc newc : ColumnDef)
      (con : TableConstraint) (oo no : GoMap String) (oc nc : String),
      (SchemaChange.dropConstraint tn cn true).priority = 5
      ∧ (SchemaChange.dropConstraint tn cn true).isDestructive = false
      ∧ (SchemaChange.dropConstraint tn cn false).priority = 10
      ∧ (SchemaChange.dropConstraint tn cn false).isDestructive = false
      ∧ (SchemaChange.dropColumn tn cn).priority = 20
      ∧ (SchemaChange.dropColumn tn cn).isDestructive = true
      ∧ (SchemaChange.dropTable tn).priority = 30
      ∧ (SchemaChange.dropTable tn).isDestructive = true
      ∧ (SchemaChange.addTable tbl).priority = 40
      ∧ (SchemaChange.addTable tbl).isDestructive = false
      ∧ (SchemaChange.addColumn tn col).priority = 50
      ∧ (SchemaChange.addColumn tn col).isDestructive = false
      ∧ (SchemaChange.addConstraint tn con).priority = 60
      ∧ (SchemaChange.addConstraint tn con).isDestructive = false
      ∧ (SchemaChange.alterColumn tn oldc newc).priority = 70
      ∧ (SchemaChange.alterColumn tn oldc newc).isDestructive = true
      ∧ (SchemaChange.alterTableOptions tn oo no oc nc).priority = 70
      ∧ (SchemaChange.alterTableOptions tn oo no oc nc).isDestructive = false := by
  intros
  exact ⟨rfl, rfl, rfl, rfl, rfl, rfl, rfl, rfl, rfl, rfl, rfl, rfl, rfl, rfl, rfl, rfl,
    rfl, rfl⟩

/-- Claim C9: every dialect conversion function returns nil on nil input
and in particular never fails there. -/
theorem conversion_nil_input_nil_output :
    PGTableToMetaTable none = none
    ∧ PGColumnToColumnDef none = none
    ∧ PGConstraintToTableConstraint none = none
    ∧ PGForeignKeyToTableConstraint none = none
    ∧ MYTableToMetaTable none = none
    ∧ MYColumnToColumnDef none = none
    ∧ MYForeignKeyToTableConstraint none = none
    ∧ MYIndexToTableConstraint none = none
    ∧ SQLiteTableToMetaTable none = none
    ∧ SQLiteColumnToColumnDef none = none
    ∧ BQTableToMetaTable none = none
    ∧ BQColumnToColumnDef none = none :=
  ⟨rfl, rfl, rfl, rfl, rfl, rfl, rfl, rfl, rfl, rfl, rfl, rfl⟩

/-- Claim C10: simple-name extraction is total outside the non-empty
invariant: a nil ObjectName and an empty identifier list both yield the
empty string, so tablesByName indexes every such table under the
empty-string key and a later one overwrites an earlier one. -/
theorem tableName_nil_and_empty_collapse :
    (tableName none = "")
    ∧ (∀ o : ObjectName, o.idents = [] → tableName (some o) = "")
    ∧ (∀ t1 t2 : MetaTable, tableName t1.name = "" → tableName t2.name = "" →
        tablesByName [t1, t2] = [("", t2)]) := by
  refine ⟨rfl, ?_, ?_⟩
  · intro o h
    simp [tableName, h]
  · intro t1 t2 h1 h2
    simp [tablesByName, goInsertAll, h1, h2, goInsert]

/-- Witness for C10: a nil-named table and an empty-named table collapse
to the same single map slot. -/
theorem tableName_nil_and_empty_collapse_witness :
    tablesByName
      [{ name := none, type := "", comment := "", options := [], elements := [] },
       { name := some { idents := [] }, type := "", comment := "", options := [],
         elements := [] }] =
    [("", { name := some { idents := [] }, type := "", comment := "", options := [],
            elements := [] })] :=
  tableName_nil_and_empty_collapse.2.2 _ _ rfl rfl

/-- First table of the C2 failing input. -/
def c2TableA : MetaTable :=
  { name := some { idents := ["a"] }, type := "", comment := "", options := [], elements := [] }

/-- Second table of the C2 failing input. -/
def c2TableB : MetaTable :=
  { name := some { idents := ["b"] }, type := "", comment := "", options := [], elements := [] }

/-- The C2 failing input: both tables are dropped, producing two changes
of equal priority 30. -/
def c2Current : MetaDatabase := { name := "d", tables := [c2TableA, c2TableB] }

/-- The empty desired snapshot of the C2 failing input. -/
def c2Desired : MetaDatabase := { name := "d", tables := [] }

/-- Claim C2 (code bug): the reversed entry order is a permutation of the
current-table map, hence a legitimate Go map iteration order for the drop
loop, yet it changes the output list: the two equal-priority DropTable
changes swap places.  Repeated runs of the Go code therefore need not
return identical lists. -/
theorem DiffDatabase_map_order_nondeterminism :
    List.Perm [("b", c2TableB), ("a", c2TableA)] (tablesByName c2Current.tables)
    ∧ DiffDatabaseWith c2Current c2Desired [("b", c2TableB), ("a", c2TableA)]
        (tablesByName c2Desired.tables) (tablesByName c2Desired.tables)
      ≠ DiffDatabase c2Current c2Desired := by
  constructor
  · decide
  · decide

/-- Every entry of a constraintsFromElements map pairs a non-empty
constraint name with a constraint of that name. -/
theorem mem_constraintsFromElements {elems : List TableElement} {p : String × TableConstraint}
    (hp : p ∈ constraintsFromElements elems) : p.2.name = p.1 ∧ p.1 ≠ "" := by
  rcases mem_goInsertAll hp with h | h
  · cases h
  · rcases List.mem_filterMap.1 h with ⟨e, _, hfe⟩
    cases hge : e.getTableConstraintElement with
    | none => rw [hge] at hfe; cases hfe
    | some tc =>
        rw [hge] at hfe
        by_cases hn : tc.name = ""
        · simp [hn] at hfe
        · simp only [bne_iff_ne, ne_eq, hn, not_false_iff, if_pos] at hfe
          have heq : (tc.name, tc) = p := Option.some_inj.1 hfe
          rw [← heq]
          exact ⟨rfl, hn⟩

/-- Every entry of a columnsFromElements map pairs a column name with a
column of that name. -/
theorem mem_columnsFromElements {elems : List TableElement} {p : String × ColumnDef}
    (hp : p ∈ columnsFromElements elems) : p.2.name = p.1 := by
  rcases mem_goInsertAll hp with h | h
  · cases h
  · rcases List.mem_filterMap.1 h with ⟨e, _, hfe⟩
    cases hge : e.getColumnDefElement with
    | none => rw [hge] at hfe; cases hfe
    | some c =>
        rw [hge] at hfe
        have heq : (c.name, c) = p := by simpa using hfe
        rw [← heq]

/-- True exactly when the change names the constraint n: a DropConstraint
with that constraint name or an AddConstraint whose payload has that
name. -/
def mentionsConstraint (c : SchemaChange) (n : String) : Bool :=
  match c with
  | .dropConstraint _ cn _ => cn == n
  | .addConstraint _ con => con.name == n
  | _ => false

/-- Claim C7: for a constraint name present in the named-constraint maps
of both sides, diffConstraints emits no change for that constraint,
regardless of whether the two constraints contents differ. -/
theorem diffConstraints_skips_common (tn : Option ObjectName)
    (ecur edes : List TableElement) (n : String)
    (hc : (goLookup (constraintsFromElements ecur) n).isSome = true)
    (hd : (goLookup (constraintsFromElements edes) n).isSome = true) :
    ((diffConstraints tn (constraintsFromElements ecur)
      (constraintsFromElements edes)).all fun c => !(mentionsConstraint c n)) = true := by
  rw [List.all_eq_true]
  intro c hcmem
  rw [diffConstraints] at hcmem
  rcases List.mem_append.1 hcmem with hm | hm
  · rw [dropConstraintPhase] at hm
    rcases List.mem_filterMap.1 hm with ⟨p, hp, hfp⟩
    cases hl : goLookup (constraintsFromElements edes) p.1 with
    | some w => rw [hl] at hfp; cases hfp
    | none =>
        rw [hl] at hfp
        have heq : SchemaChange.dropConstraint tn p.1 (isReferenceConstraint p.2) = c :=
          Option.some_inj.1 hfp
        rw [← heq]
        simp only [mentionsConstraint, Bool.not_eq_true']
        rw [beq_eq_false_iff_ne]
        intro hpn
        rw [← hpn] at hd
        rw [hl] at hd
        cases hd
  · rw [addConstraintPhase] at hm
    rcases List.mem_filterMap.1 hm with ⟨p, hp, hfp⟩
    cases hl : goLookup (constraintsFromElements ecur) p.1 with
    | some w => rw [hl] at hfp; cases hfp
    | none =>
        rw [hl] at hfp
        have heq : SchemaChange.addConstraint tn p.2 = c := Option.some_inj.1 hfp
        rw [← heq]
        simp only [mentionsConstraint, Bool.not_eq_true']
        rw [beq_eq_false_iff_ne]
        intro hpn
        have hkey : p.1 = n := by
          rw [← (mem_constraintsFromElements hp).1, hpn]
        rw [← hkey] at hc
        rw [hl] at hc
        cases hc

/-- Witness for C7: a constraint named pk present on both sides, with
different contents, is never mentioned by the emitted changes. -/
theorem diffConstraints_skips_common_witness :
    ((diffConstraints none
      (constraintsFromElements [TableElement.tableConstraintElement
        { name := "pk"
          spec := some (.uniqueItem { isPrimary := true, columns := ["id"], indexName := "" }) }])
      (constraintsFromElements [TableElement.tableConstraintElement
        { name := "pk"
          spec := some (.uniqueItem { isPrimary := false, columns := ["id", "x"],
                                      indexName := "i" }) }])).all
      fun c => !(mentionsConstraint c "pk")) = true :=
  diffConstraints_skips_common none _ _ "pk" (by decide) (by decide)

/-- Every element of the drop-column phase is a DropColumn for a current
key absent from the desired map. -/
theorem mem_dropColumnPhase {tn : Option ObjectName} {C D : GoMap ColumnDef}
    {x : SchemaChange} (h : x ∈ dropColumnPhase tn C D) :
    ∃ p ∈ C, goLookup D p.1 = none ∧ x = SchemaChange.dropColumn tn p.1 := by
  rw [dropColumnPhase] at h
  rcases List.mem_filterMap.1 h with ⟨p, hp, hfp⟩
  cases hl : goLookup D p.1 with
  | some w => rw [hl] at hfp; cases hfp
  | none =>
      rw [hl] at hfp
      exact ⟨p, hp, hl, (Option.some_inj.1 hfp).symm⟩

/-- Every element of the add-column phase is an AddColumn for a desired
column whose key is absent from the current map. -/
theorem mem_addColumnPhase {tn : Option ObjectName} {C D : GoMap ColumnDef}
    {x : SchemaChange} (h : x ∈ addColumnPhase tn C D) :
    ∃ p ∈ D, goLookup C p.1 = none ∧ x = SchemaChange.addColumn tn p.2 := by
  rw [addColumnPhase] at h
  rcases List.mem_filterMap.1 h with ⟨p, hp, hfp⟩
  cases hl : goLookup C p.1 with
  | some w => rw [hl] at hfp; cases hfp
  | none =>
      rw [hl] at hfp
      exact ⟨p, hp, hl, (Option.some_inj.1 hfp).symm⟩

/-- Every element of the alter-column phase is an AlterColumn for a key
present on both sides whose columns are not columnsEqual. -/
theorem mem_alterColumnPhase {tn : Option ObjectName} {C D : GoMap ColumnDef}
    {x : SchemaChange} (h : x ∈ alterColumnPhase tn C D) :
    ∃ p ∈ D, ∃ cc, goLookup C p.1 = some cc ∧ columnsEqual cc p.2 = false ∧
      x = SchemaChange.alterColumn tn cc p.2 := by
  rw [alterColumnPhase] at h
  rcases List.mem_filterMap.1 h with ⟨p, hp, hfp⟩
  cases hl : goLookup C p.1 with
  | none => rw [hl] at hfp; cases hfp
  | some cc =>
      rw [hl] at hfp
      cases he : columnsEqual cc p.2 with
      | true => simp [he] at hfp
      | false =>
          simp only [he, Bool.false_eq_true, if_false] at hfp
          exact ⟨p, hp, cc, hl, he, (Option.some_inj.1 hfp).symm⟩

/-- Every element of the drop-constraint phase is a DropConstraint for a
current key absent from the desired map. -/
theorem mem_dropConstraintPhase {tn : Option ObjectName} {C D : GoMap TableConstraint}
    {x : SchemaChange} (h : x ∈ dropConstraintPhase tn C D) :
    ∃ p ∈ C, goLookup D p.1 = none ∧
      x = SchemaChange.dropConstraint tn p.1 (isReferenceConstraint p.2) := by
  rw [dropConstraintPhase] at h
  rcases List.mem_filterMap.1 h with ⟨p, hp, hfp⟩
  cases hl : goLookup D p.1 with
  | some w => rw [hl] at hfp; cases hfp
  | none =>
      rw [hl] at hfp
      exact ⟨p, hp, hl, (Option.some_inj.1 hfp).symm⟩

/-- Every element of the add-constraint phase is an AddConstraint for a
desired constraint whose key is absent from the current map. -/
theorem mem_addConstraintPhase {tn : Option ObjectName} {C D : GoMap TableConstraint}
    {x : SchemaChange} (h : x ∈ addConstraintPhase tn C D) :
    ∃ p ∈ D, goLookup C p.1 = none ∧ x = SchemaChange.addConstraint tn p.2 := by
  rw [addConstraintPhase] at h
  rcases List.mem_filterMap.1 h with ⟨p, hp, hfp⟩
  cases hl : goLookup C p.1 with
  | some w => rw [hl] at hfp; cases hfp
  | none =>
      rw [hl] at hfp
      exact ⟨p, hp, hl, (Option.some_inj.1 hfp).symm⟩

/-- Counting a value in a filterMap image counts its preimages. -/
theorem count_filterMap {β : Type} (f : β → Option SchemaChange) (l : List β)
    (b : SchemaChange) :
    (l.filterMap f).count b = l.countP fun a => f a == some b := by
  induction l with
  | nil => rfl
  | cons x xs ih =>
      cases hfx : f x with
      | none => simp [List.filterMap_cons, hfx, List.countP_cons, ih]
      | some w =>
          simp [List.filterMap_cons, hfx, List.countP_cons, List.count_cons, ih]

/-- In a map with distinct keys containing the key n, exactly one entry
has key n. -/
theorem countP_key_eq_one {α : Type} {m : GoMap α} {n : String} {v : α}
    (hnd : (m.map Prod.fst).Nodup) (hm : (n, v) ∈ m) :
    (m.countP fun p => p.1 == n) = 1 := by
  induction m with
  | nil => cases hm
  | cons q rest ih =>
      obtain ⟨q1, q2⟩ := q
      simp only [List.map_cons, List.nodup_cons] at hnd
      rw [List.countP_cons]
      by_cases hq : q1 = n
      · have h0 : rest.countP (fun p => p.1 == n) = 0 := by
          rw [List.countP_eq_zero]
          intro p hp hbeq
          have : p.1 = n := by simpa using hbeq
          exact hnd.1 (hq ▸ this ▸ List.mem_map_of_mem Prod.fst hp)
        simp [h0, hq]
      · rcases List.mem_cons.1 hm with h | h
        · exact absurd (congrArg Prod.fst h).symm hq
        · simp [hq, ih hnd.2 h]

/-- Exactly one DropColumn is emitted for a key of a duplicate-free
current map that is absent from the desired map. -/
theorem count_dropColumnPhase_eq_one {tn : Option ObjectName} {C D : GoMap ColumnDef}
    {n : String} {c : ColumnDef} (hnd : (C.map Prod.fst).Nodup)
    (hC : goLookup C n = some c) (hD : goLookup D n = none) :
    (dropColumnPhase tn C D).count (SchemaChange.dropColumn tn n) = 1 := by
  rw [dropColumnPhase, count_filterMap]
  have hcongr : ∀ p ∈ C,
      (((match goLookup D p.1 with
         | some _ => none
         | none => some (SchemaChange.dropColumn tn p.1)) ==
        some (SchemaChange.dropColumn tn n)) = true)
      ↔ ((p.1 == n) = true) := by
    intro p _
    cases hl : goLookup D p.1 with
    | some w =>
        simp only [hl]
        constructor
        · intro hco; simp at hco
        · intro hbn
          have hn : p.1 = n := by simpa using hbn
          rw [hn, hD] at hl
          cases hl
    | none =>
        simp only [hl]
        simp [beq_iff_eq]
  rw [List.countP_congr hcongr]
  exact countP_key_eq_one hnd (mem_of_goLookup_eq_some hC)

/-- Exactly one AddColumn is emitted for a column of a duplicate-free
desired map whose key is absent from the current map. -/
theorem count_addColumnPhase_eq_one {tn : Option ObjectName} {C D : GoMap ColumnDef}
    {n : String} {d : ColumnDef} (hnd : (D.map Prod.fst).Nodup)
    (hval : ∀ p ∈ D, p.2.name = p.1)
    (hC : goLookup C n = none) (hD : goLookup D n = some d) :
    (addColumnPhase tn C D).count (SchemaChange.addColumn tn d) = 1 := by
  have hdn : d.name = n := hval (n, d) (mem_of_goLookup_eq_some hD)
  rw [addColumnPhase, count_filterMap]
  have hcongr : ∀ p ∈ D,
      (((match goLookup C p.1 with
         | some _ => none
         | none => some (SchemaChange.addColumn tn p.2)) ==
        some (SchemaChange.addColumn tn d)) = true)
      ↔ ((p.1 == n) = true) := by
    intro p hp
    cases hl : goLookup C p.1 with
    | some w =>
        simp only [hl]
        constructor
        · intro hco; simp at hco
        · intro hbn
          have hn : p.1 = n := by simpa using hbn
          rw [hn, hC] at hl
          cases hl
    | none =>
        simp only [hl]
        constructor
        · intro hco
          have hpd : p.2 = d := by simpa [beq_iff_eq] using hco
          have hn : p.1 = n := by rw [← hval p hp, hpd, hdn]
          simpa using hn
        · intro hbn
          have hn : p.1 = n := by simpa using hbn
          have hlook : goLookup D n = some p.2 := by
            rw [← hn]
            apply goLookup_eq_some_of_mem_nodup hnd
            rw [show ((p.1 : String), p.2) = p from rfl]
            exact hp
          rw [hD] at hlook
          have hpd : p.2 = d := (Option.some_inj.1 hlook).symm
          simp [beq_iff_eq, hpd]
  rw [List.countP_congr hcongr]
  exact countP_key_eq_one hnd (mem_of_goLookup_eq_some hD)

/-- An AlterColumn for a key present on both sides is emitted exactly
when the two columns are not columnsEqual, and then exactly once. -/
theorem count_alterColumnPhase_eq {tn : Option ObjectName} {C D : GoMap ColumnDef}
    {n : String} {c d : ColumnDef} (hnd : (D.map Prod.fst).Nodup)
    (hval : ∀ p ∈ D, p.2.name = p.1)
    (hC : goLookup C n = some c) (hD : goLookup D n = some d) :
    (alterColumnPhase tn C D).count (SchemaChange.alterColumn tn c d)
      = if columnsEqual c d then 0 else 1 := by
  have hdn : d.name = n := hval (n, d) (mem_of_goLookup_eq_some hD)
  cases he : columnsEqual c d with
  | true =>
      simp only [if_true]
      rw [List.count_eq_zero]
      intro hmem
      rcases mem_alterColumnPhase hmem with ⟨p, hp, cc, hlk, hne, heq⟩
      have hinj : c = cc ∧ d = p.2 := by simpa using heq
      rw [← hinj.1, ← hinj.2] at hne
      rw [he] at hne
      cases hne
  | false =>
      simp only [Bool.false_eq_true, if_false]
      rw [alterColumnPhase, count_filterMap]
      have hcongr : ∀ p ∈ D,
          (((match goLookup C p.1 with
             | some currCol =>
                 if columnsEqual currCol p.2 then none
                 else some (SchemaChange.alterColumn tn currCol p.2)
             | none => none) ==
            some (SchemaChange.alterColumn tn c d)) = true)
          ↔ ((p.1 == n) = true) := by
        intro p hp
        have hkey : (p.1 == n) = true → p.2 = d ∧ goLookup C p.1 = some c := by
          intro hbn
          have hn : p.1 = n := by simpa using hbn
          have hlook : goLookup D n = some p.2 := by
            rw [← hn]
            apply goLookup_eq_some_of_mem_nodup hnd
            rw [show ((p.1 : String), p.2) = p from rfl]
            exact hp
          rw [hD] at hlook
          exact ⟨(Option.some_inj.1 hlook).symm, by rw [hn, hC]⟩
        cases hl : goLookup C p.1 with
        | none =>
            simp only [hl]
            constructor
            · intro hco; simp at hco
            · intro hbn
              rcases hkey hbn with ⟨_, hlc⟩
              rw [hl] at hlc
              cases hlc
        | some cc =>
            simp only [hl]
            cases hcc : columnsEqual cc p.2 with
            | true =>
                simp only [hcc, if_true]
                constructor
                · intro hco; simp at hco
                · intro hbn
                  rcases hkey hbn with ⟨hpd, hlc⟩
                  rw [hl] at hlc
                  have : cc = c := Option.some_inj.1 hlc
                  rw [this, hpd] at hcc
                  rw [he] at hcc
                  cases hcc
            | false =>
                simp only [hcc, Bool.false_eq_true, if_false]
                constructor
                · intro hco
                  have hinj : cc = c ∧ p.2 = d := by
                    have h2 : SchemaChange.alterColumn tn cc p.2
                        = SchemaChange.alterColumn tn c d := by
                      simpa [beq_iff_eq] using hco
                    have h3 : cc = c ∧ p.2 = d := by simpa using h2
                    exact h3
                  have hn : p.1 = n := by rw [← hval p hp, hinj.2, hdn]
                  simpa using hn
                · intro hbn
                  rcases hkey hbn with ⟨hpd, hlc⟩
                  rw [hl] at hlc
                  have hccc : cc = c := Option.some_inj.1 hlc
                  simp [beq_iff_eq, hccc, hpd]
      rw [List.countP_congr hcongr]
      exact countP_key_eq_one hnd (mem_of_goLookup_eq_some hD)

/-- Claim C6: per table present on both sides, a column name only in
current yields exactly one DropColumn, only in desired exactly one
AddColumn, and in both exactly one AlterColumn when the two columns are
not columnsEqual and none when they are; columnsEqual is deep structural
equality restricted to name, comment, DataType and default, so a
difference confined to the constraint list, the options map or the
decorators never produces an AlterColumn. -/
theorem diffColumns_per_column (tn : Option ObjectName) (ecur edes : List TableElement) :
    (∀ n c, goLookup (columnsFromElements ecur) n = some c →
        goLookup (columnsFromElements edes) n = none →
        (diffColumns tn (columnsFromElements ecur) (columnsFromElements edes)).count
          (SchemaChange.dropColumn tn n) = 1)
    ∧ (∀ n d, goLookup (columnsFromElements ecur) n = none →
        goLookup (columnsFromElements edes) n = some d →
        (diffColumns tn (columnsFromElements ecur) (columnsFromElements edes)).count
          (SchemaChange.addColumn tn d) = 1)
    ∧ (∀ n c d, goLookup (columnsFromElements ecur) n = some c →
        goLookup (columnsFromElements edes) n = some d →
        (diffColumns tn (columnsFromElements ecur) (columnsFromElements edes)).count
          (SchemaChange.alterColumn tn c d) = if columnsEqual c d then 0 else 1)
    ∧ (∀ a b : ColumnDef, columnsEqual a b = true ↔
        (a.name = b.name ∧ a.comment = b.comment ∧ a.dataType = b.dataType
          ∧ a.default = b.default)) := by
  have hndC := columnsFromElements_keys_nodup ecur
  have hndD := columnsFromElements_keys_nodup edes
  have hvalD : ∀ p ∈ columnsFromElements edes, p.2.name = p.1 :=
    fun _ hp => mem_columnsFromElements hp
  refine ⟨?_, ?_, ?_, ?_⟩
  · intro n c hC hD
    rw [diffColumns, List.count_append, List.count_append]
    have e2 : (addColumnPhase tn (columnsFromElements ecur)
        (columnsFromElements edes)).count (SchemaChange.dropColumn tn n) = 0 := by
      rw [List.count_eq_zero]
      intro hmem
      rcases mem_addColumnPhase hmem with ⟨p, _, _, heq⟩
      cases heq
    have e3 : (alterColumnPhase tn (columnsFromElements ecur)
        (columnsFromElements edes)).count (SchemaChange.dropColumn tn n) = 0 := by
      rw [List.count_eq_zero]
      intro hmem
      rcases mem_alterColumnPhase hmem with ⟨p, _, cc, _, _, heq⟩
      cases heq
    rw [count_dropColumnPhase_eq_one hndC hC hD, e2, e3]
  · intro n d hC hD
    rw [diffColumns, List.count_append, List.count_append]
    have e1 : (dropColumnPhase tn (columnsFromElements ecur)
        (columnsFromElements edes)).count (SchemaChange.addColumn tn d) = 0 := by
      rw [List.count_eq_zero]
      intro hmem
      rcases mem_dropColumnPhase hmem with ⟨p, _, _, heq⟩
      cases heq
    have e3 : (alterColumnPhase tn (columnsFromElements ecur)
        (columnsFromElements edes)).count (SchemaChange.addColumn tn d) = 0 := by
      rw [List.count_eq_zero]
      intro hmem
      rcases mem_alterColumnPhase hmem with ⟨p, _, cc, _, _, heq⟩
      cases heq
    rw [count_addColumnPhase_eq_one hndD hvalD hC hD, e1, e3]
  · intro n c d hC hD
    rw [diffColumns, List.count_append, List.count_append]
    have e1 : (dropColumnPhase tn (columnsFromElements ecur)
        (columnsFromElements edes)).count (SchemaChange.alterColumn tn c d) = 0 := by
      rw [List.count_eq_zero]
      intro hmem
      rcases mem_dropColumnPhase hmem with ⟨p, _, _, heq⟩
      cases heq
    have e2 : (addColumnPhase tn (columnsFromElements ecur)
        (columnsFromElements edes)).count (SchemaChange.alterColumn tn c d) = 0 := by
      rw [List.count_eq_zero]
      intro hmem
      rcases mem_addColumnPhase hmem with ⟨p, _, _, heq⟩
      cases heq
    rw [count_alterColumnPhase_eq hndD hvalD hC hD, e1, e2]
    simp
  · intro a b
    simp [columnsEqual, Bool.and_eq_true, beq_iff_eq, and_assoc]

/-- Witness for C6: on a concrete pair of element lists, a dropped column
counts once, an added column counts once, and an equal column pair causes
no AlterColumn while a changed comment causes exactly one. -/
theorem diffColumns_per_column_witness :
    (diffColumns none
      (columnsFromElements
        [TableElement.columnDefElement
          { name := "id", dataType := some DataType.intData, default := none, comment := "",
            options := [], constraints := [], myDecos := [] },
         TableElement.columnDefElement
          { name := "legacy", dataType := none, default := none, comment := "",
            options := [], constraints := [], myDecos := [] }])
      (columnsFromElements
        [TableElement.columnDefElement
          { name := "id", dataType := some DataType.intData, default := none, comment := "",
            options := [], constraints := [], myDecos := [] },
         TableElement.columnDefElement
          { name := "email", dataType := none, default := none, comment := "",
            options := [], constraints := [], myDecos := [] }])).count
      (SchemaChange.dropColumn none "legacy") = 1 :=
  (diffColumns_per_column none _ _).1 "legacy"
    { name := "legacy", dataType := none, default := none, comment := "",
      options := [], constraints := [], myDecos := [] }
    (by decide) (by decide)

/-- The nil-able table name a change refers to: the TableName field of
the change, or the name of the carried table for AddTable. -/
def SchemaChange.tableNameOf : SchemaChange → Option ObjectName
  | .addTable t => t.name
  | .dropTable tn => tn
  | .alterTableOptions tn _ _ _ _ => tn
  | .addColumn tn _ => tn
  | .dropColumn tn _ => tn
  | .alterColumn tn _ _ => tn
  | .addConstraint tn _ => tn
  | .dropConstraint tn _ _ => tn

/-- Counting over a flatMap sums the counts of the pieces. -/
theorem count_flatMap {β : Type} (l : List β) (f : β → List SchemaChange)
    (b : SchemaChange) :
    (l.flatMap f).count b = (l.map fun a => (f a).count b).sum := by
  induction l with
  | nil => rfl
  | cons x xs ih => simp [List.flatMap_cons, List.count_append, ih]

/-- With distinct keys, two source tables with the same simple name are
the same table. -/
theorem eq_of_tableName_eq {ts : List MetaTable}
    (hnd : (ts.map fun u => tableName u.name).Nodup)
    {u t : MetaTable} (hu : u ∈ ts) (ht : t ∈ ts)
    (hk : tableName u.name = tableName t.name) : u = t := by
  induction ts with
  | nil => cases hu
  | cons v rest ih =>
      simp only [List.map_cons, List.nodup_cons] at hnd
      rcases List.mem_cons.1 hu with h1 | h1 <;> rcases List.mem_cons.1 ht with h2 | h2
      · rw [h1, h2]
      · subst h1
        exact absurd (hk ▸ List.mem_map_of_mem (fun w => tableName w.name) h2) hnd.1
      · subst h2
        exact absurd (hk ▸ List.mem_map_of_mem (fun w => tableName w.name) h1) hnd.1
      · exact ih hnd.2 h1 h2

/-- Every change of tableDropChanges is the DropTable of that table or a
DropConstraint on that table. -/
theorem mem_tableDropChanges {u : MetaTable} {x : SchemaChange}
    (h : x ∈ tableDropChanges u) :
    x = SchemaChange.dropTable u.name
    ∨ ∃ cn fk, x = SchemaChange.dropConstraint u.name cn fk := by
  rw [tableDropChanges] at h
  rcases List.mem_append.1 h with h | h
  · rcases List.mem_filterMap.1 h with ⟨e, _, hfe⟩
    cases hge : e.getTableConstraintElement with
    | none => rw [hge] at hfe; cases hfe
    | some tc =>
        rw [hge] at hfe
        have heq := Option.some_inj.1 (by simpa using hfe)
        exact Or.inr ⟨tc.name, isReferenceConstraint tc, heq.symm⟩
  · rcases List.mem_singleton.1 h with h
    exact Or.inl h

/-- tableDropChanges emits its DropTable exactly once, and only for its
own table name. -/
theorem count_dropTable_tableDropChanges (u : MetaTable) (nm : Option ObjectName) :
    (tableDropChanges u).count (SchemaChange.dropTable nm)
      = if u.name = nm then 1 else 0 := by
  rw [tableDropChanges, List.count_append]
  have h1 : (u.elements.filterMap fun elem =>
      elem.getTableConstraintElement.map fun tc =>
        SchemaChange.dropConstraint u.name tc.name (isReferenceConstraint tc)).count
      (SchemaChange.dropTable nm) = 0 := by
    rw [List.count_eq_zero]
    intro hmem
    rcases List.mem_filterMap.1 hmem with ⟨e, _, hfe⟩
    cases hge : e.getTableConstraintElement with
    | none => rw [hge] at hfe; cases hfe
    | some tc => rw [hge] at hfe; simp at hfe
  rw [h1]
  by_cases h : u.name = nm
  · simp [h, List.count_cons]
  · simp only [List.count_cons, List.count_nil]
    have : (SchemaChange.dropTable u.name == SchemaChange.dropTable nm) = false := by
      simp [beq_iff_eq]
      intro hc
      exact absurd hc h
    simp [this, h]

/-- tableDropChanges emits one DropConstraint per matching constraint
element of its own table. -/
theorem count_dropConstraint_tableDropChanges (u : MetaTable) (cn : String) (fk : Bool) :
    (tableDropChanges u).count (SchemaChange.dropConstraint u.name cn fk)
      = u.elements.countP fun e =>
          match e.getTableConstraintElement with
          | some tc => tc.name == cn && (isReferenceConstraint tc == fk)
          | none => false := by
  rw [tableDropChanges, List.count_append]
  have h2 : ([SchemaChange.dropTable u.name]).count
      (SchemaChange.dropConstraint u.name cn fk) = 0 := by
    simp [List.count_cons]
  rw [h2, count_filterMap]
  have hcongr : ∀ e ∈ u.elements,
      (((e.getTableConstraintElement.map fun tc =>
          SchemaChange.dropConstraint u.name tc.name (isReferenceConstraint tc)) ==
        some (SchemaChange.dropConstraint u.name cn fk)) = true)
      ↔ ((match e.getTableConstraintElement with
          | some tc => tc.name == cn && (isReferenceConstraint tc == fk)
          | none => false) = true) := by
    intro e _
    cases hge : e.getTableConstraintElement with
    | none => simp [hge]
    | some tc => simp [hge, beq_iff_eq, Bool.and_eq_true]
  rw [List.countP_congr hcongr]
  exact Nat.add_zero _

/-- A table whose simple name differs contributes no DropTable and no
DropConstraint for the dropped table. -/
theorem count_tableDropChanges_other {u t : MetaTable}
    (hne : tableName u.name ≠ tableName t.name) (cn : String) (fk : Bool) :
    (tableDropChanges u).count (SchemaChange.dropTable t.name) = 0
    ∧ (tableDropChanges u).count (SchemaChange.dropConstraint t.name cn fk) = 0 := by
  have hname : u.name ≠ t.name := fun h => hne (by rw [h])
  constructor
  · rw [count_dropTable_tableDropChanges, if_neg hname]
  · rw [List.count_eq_zero]
    intro hmem
    rcases mem_tableDropChanges hmem with h | ⟨cn2, fk2, h⟩
    · cases h
    · have : t.name = u.name := by
        have h3 : t.name = u.name ∧ cn = cn2 ∧ fk = fk2 := by simpa using h
        exact h3.1
      exact hname this.symm

/-- The drop loop contributes nothing for a list of tables whose simple
names all differ from the dropped key. -/
theorem count_dropPart_zero (desT : GoMap MetaTable) (tgt : SchemaChange)
    (keyt : String) :
    ∀ ts : List MetaTable,
      (∀ u ∈ ts, tableName u.name ≠ keyt) →
      (∀ u : MetaTable, tableName u.name ≠ keyt → (tableDropChanges u).count tgt = 0) →
      (((ts.map fun u => (tableName u.name, u)).flatMap fun p =>
          match goLookup desT p.1 with
          | some _ => []
          | none => tableDropChanges p.2).count tgt) = 0 := by
  intro ts
  induction ts with
  | nil => intro _ _; rfl
  | cons u rest ih =>
      intro hall hzero
      simp only [List.map_cons, List.flatMap_cons, List.count_append]
      have hhead : ((match goLookup desT (tableName u.name) with
          | some _ => []
          | none => tableDropChanges u) : List SchemaChange).count tgt = 0 := by
        cases goLookup desT (tableName u.name) with
        | some w => rfl
        | none => exact hzero u (hall u (List.mem_cons_self u rest))
      rw [hhead, ih (fun v hv => hall v (List.mem_cons_of_mem u hv)) hzero]

/-- The drop loop over a duplicate-free table list reduces, for the
counted targets of one dropped table, to that table's own drop changes. -/
theorem count_dropPart_eq (desT : GoMap MetaTable) (tgt : SchemaChange) :
    ∀ (ts : List MetaTable) (t : MetaTable),
      (ts.map fun u => tableName u.name).Nodup →
      t ∈ ts →
      goLookup desT (tableName t.name) = none →
      (∀ u : MetaTable, tableName u.name ≠ tableName t.name →
        (tableDropChanges u).count tgt = 0) →
      (((ts.map fun u => (tableName u.name, u)).flatMap fun p =>
          match goLookup desT p.1 with
          | some _ => []
          | none => tableDropChanges p.2).count tgt)
        = (tableDropChanges t).count tgt := by
  intro ts
  induction ts with
  | nil => intro t _ ht; cases ht
  | cons u rest ih =>
      intro t hnd htmem hdrop hzero
      simp only [List.map_cons, List.flatMap_cons, List.count_append]
      simp only [List.map_cons, List.nodup_cons] at hnd
      rcases List.mem_cons.1 htmem with heq | hmem
      · subst heq
        rw [hdrop]
        have hall : ∀ v ∈ rest, tableName v.name ≠ tableName t.name := by
          intro v hv hc
          exact hnd.1 (hc ▸ List.mem_map_of_mem (fun w => tableName w.name) hv)
        rw [count_dropPart_zero desT tgt (tableName t.name) rest hall hzero]
        exact Nat.add_zero _
      · have hneq : tableName u.name ≠ tableName t.name := by
          intro hc
          exact hnd.1 (hc ▸ List.mem_map_of_mem (fun w => tableName w.name) hmem)
        have hhead : ((match goLookup desT (tableName u.name) with
            | some _ => []
            | none => tableDropChanges u) : List SchemaChange).count tgt = 0 := by
          cases goLookup desT (tableName u.name) with
          | some w => rfl
          | none => exact hzero u hneq
        rw [hhead, ih t hnd.2 hmem hdrop hzero]
        exact Nat.zero_add _

/-- Every change of diffTable is tagged with the desired table name and
is never a DropTable or an AddTable. -/
theorem mem_diffTable_shape {a b : MetaTable} {x : SchemaChange} (h : x ∈ diffTable a b) :
    x.tableNameOf = b.name
    ∧ (∀ tn, x ≠ SchemaChange.dropTable tn)
    ∧ (∀ t, x ≠ SchemaChange.addTable t) := by
  rw [diffTable] at h
  rcases List.mem_append.1 h with h | h
  · rcases List.mem_append.1 h with h | h
    · split at h
      · rcases List.mem_singleton.1 h with h
        subst h
        exact ⟨rfl, fun tn hc => SchemaChange.noConfusion hc, fun t hc => SchemaChange.noConfusion hc⟩
      · cases h
    · rcases List.mem_append.1 h with h | h
      · rcases List.mem_append.1 h with h | h
        · rcases mem_dropColumnPhase h with ⟨p, _, _, heq⟩
          subst heq
          exact ⟨rfl, fun tn hc => SchemaChange.noConfusion hc, fun t hc => SchemaChange.noConfusion hc⟩
        · rcases mem_addColumnPhase h with ⟨p, _, _, heq⟩
          subst heq
          exact ⟨rfl, fun tn hc => SchemaChange.noConfusion hc, fun t hc => SchemaChange.noConfusion hc⟩
      · rcases mem_alterColumnPhase h with ⟨p, _, cc, _, _, heq⟩
        subst heq
        exact ⟨rfl, fun tn hc => SchemaChange.noConfusion hc, fun t hc => SchemaChange.noConfusion hc⟩
  · rcases List.mem_append.1 h with h | h
    · rcases mem_dropConstraintPhase h with ⟨p, _, _, heq⟩
      subst heq
      exact ⟨rfl, fun tn hc => SchemaChange.noConfusion hc, fun t hc => SchemaChange.noConfusion hc⟩
    · rcases mem_addConstraintPhase h with ⟨p, _, _, heq⟩
      subst heq
      exact ⟨rfl, fun tn hc => SchemaChange.noConfusion hc, fun t hc => SchemaChange.noConfusion hc⟩

/-- The add loop emits only AddTable changes. -/
theorem count_addPart_zero (curT desT : GoMap MetaTable) (tgt : SchemaChange)
    (htgt : ∀ u : MetaTable, tgt ≠ SchemaChange.addTable u) :
    ((desT.flatMap fun p =>
        match goLookup curT p.1 with
        | some _ => []
        | none => [SchemaChange.addTable p.2]).count tgt) = 0 := by
  rw [List.count_eq_zero]
  intro hmem
  rcases List.mem_flatMap.1 hmem with ⟨p, hp, hx⟩
  cases hl : goLookup curT p.1 with
  | some w => rw [hl] at hx; cases hx
  | none =>
      rw [hl] at hx
      exact htgt p.2 (List.mem_singleton.1 hx)

/-- The common loop only emits changes naming tables of the desired
map, so it emits nothing naming a table absent from the desired map. -/
theorem count_commonPart_zero (curT : GoMap MetaTable) (des : MetaDatabase)
    (tgt : SchemaChange)
    (hdrop : goLookup (tablesByName des.tables) (tableName tgt.tableNameOf) = none) :
    (((tablesByName des.tables).flatMap fun p =>
        match goLookup curT p.1 with
        | some currTable => diffTable currTable p.2
        | none => []).count tgt) = 0 := by
  rw [List.count_eq_zero]
  intro hmem
  rcases List.mem_flatMap.1 hmem with ⟨p, hp, hx⟩
  cases hl : goLookup curT p.1 with
  | none => rw [hl] at hx; cases hx
  | some c =>
      rw [hl] at hx
      have hshape := mem_diffTable_shape hx
      have hkey : tableName tgt.tableNameOf = p.1 := by
        rw [hshape.1]
        exact (mem_tablesByName hp).2.symm
      have hphm : ((p.1 : String), p.2) ∈ tablesByName des.tables := by
        rw [show ((p.1 : String), p.2) = p from rfl]
        exact hp
      rcases goLookup_isSome_of_mem hphm with ⟨w, hw⟩
      rw [← hkey] at hw
      rw [hdrop] at hw
      cases hw

/-- Claim C4 (amended): for a table whose simple name is in current but
not desired, with distinct simple names in current, the output holds
exactly one DropConstraint per table-constraint element of that table,
named or unnamed (IsForeignKey true exactly for a ReferenceItem spec),
exactly one DropTable, and no other change referring to that table. -/
theorem dropped_table_changes (cur des : MetaDatabase) (t : MetaTable)
    (hnodup : (cur.tables.map fun u => tableName u.name).Nodup)
    (ht : t ∈ cur.tables)
    (hdrop : goLookup (tablesByName des.tables) (tableName t.name) = none) :
    ((DiffDatabase cur des).count (SchemaChange.dropTable t.name) = 1)
    ∧ (∀ cn fk, (DiffDatabase cur des).count (SchemaChange.dropConstraint t.name cn fk)
        = t.elements.countP fun e =>
            match e.getTableConstraintElement with
            | some tc => tc.name == cn && (isReferenceConstraint tc == fk)
            | none => false)
    ∧ (∀ x ∈ DiffDatabase cur des, x.tableNameOf = t.name →
        x = SchemaChange.dropTable t.name
        ∨ ∃ cn fk, x = SchemaChange.dropConstraint t.name cn fk) := by
  have hperm : List.Perm (DiffDatabase cur des)
      ((((tablesByName cur.tables).flatMap fun p =>
          match goLookup (tablesByName des.tables) p.1 with
          | some _ => []
          | none => tableDropChanges p.2) ++
        ((tablesByName des.tables).flatMap fun p =>
          match goLookup (tablesByName cur.tables) p.1 with
          | some _ => []
          | none => [SchemaChange.addTable p.2]) ++
        ((tablesByName des.tables).flatMap fun p =>
          match goLookup (tablesByName cur.tables) p.1 with
          | some currTable => diffTable currTable p.2
          | none => []))) := SortChanges_perm _
  refine ⟨?_, ?_, ?_⟩
  · rw [hperm.count_eq, List.count_append, List.count_append,
      tablesByName_of_nodup hnodup,
      count_dropPart_eq (tablesByName des.tables) _ cur.tables t hnodup ht hdrop
        (fun u hne => (count_tableDropChanges_other hne "" false).1),
      count_dropTable_tableDropChanges t t.name, if_pos rfl,
      count_addPart_zero _ _ _ (fun u hc => SchemaChange.noConfusion hc),
      count_commonPart_zero (cur.tables.map fun u => (tableName u.name, u)) des
        (SchemaChange.dropTable t.name) hdrop]
  · intro cn fk
    rw [hperm.count_eq, List.count_append, List.count_append,
      tablesByName_of_nodup hnodup,
      count_dropPart_eq (tablesByName des.tables) _ cur.tables t hnodup ht hdrop
        (fun u hne => (count_tableDropChanges_other hne cn fk).2),
      count_dropConstraint_tableDropChanges t cn fk,
      count_addPart_zero _ _ _ (fun u hc => SchemaChange.noConfusion hc),
      count_commonPart_zero (cur.tables.map fun u => (tableName u.name, u)) des
        (SchemaChange.dropConstraint t.name cn fk) hdrop]
    simp
  · intro x hx hxname
    have hxbody := (hperm.mem_iff).1 hx
    rcases List.mem_append.1 hxbody with hm | hm
    · rcases List.mem_append.1 hm with hm | hm
      · rcases List.mem_flatMap.1 hm with ⟨p, hp, hxin⟩
        cases hl : goLookup (tablesByName des.tables) p.1 with
        | some w => rw [hl] at hxin; cases hxin
        | none =>
            rw [hl] at hxin
            rcases mem_tableDropChanges hxin with h | ⟨cn, fk, h⟩
            · subst h
              have hpname : p.2.name = t.name := hxname
              have hpt : p.2 = t :=
                eq_of_tableName_eq hnodup (mem_tablesByName hp).1 ht (by rw [hpname])
              left
              rw [hpt]
            · subst h
              have hpname : p.2.name = t.name := hxname
              have hpt : p.2 = t :=
                eq_of_tableName_eq hnodup (mem_tablesByName hp).1 ht (by rw [hpname])
              right
              exact ⟨cn, fk, by rw [hpt]⟩
      · rcases List.mem_flatMap.1 hm with ⟨p, hp, hxin⟩
        cases hl : goLookup (tablesByName cur.tables) p.1 with
        | some w => rw [hl] at hxin; cases hxin
        | none =>
            rw [hl] at hxin
            have hxeq : x = SchemaChange.addTable p.2 := List.mem_singleton.1 hxin
            subst hxeq
            exfalso
            have hpname : p.2.name = t.name := hxname
            have hphm : ((p.1 : String), p.2) ∈ tablesByName des.tables := by
              rw [show ((p.1 : String), p.2) = p from rfl]
              exact hp
            rcases goLookup_isSome_of_mem hphm with ⟨w, hw⟩
            have hkey : p.1 = tableName t.name := by
              rw [(mem_tablesByName hp).2, hpname]
            rw [hkey] at hw
            rw [hdrop] at hw
            cases hw
    · rcases List.mem_flatMap.1 hm with ⟨p, hp, hxin⟩
      cases hl : goLookup (tablesByName cur.tables) p.1 with
      | none => rw [hl] at hxin; cases hxin
      | some c =>
          rw [hl] at hxin
          have hshape := mem_diffTable_shape hxin
          exfalso
          have hpname : p.2.name = t.name := hshape.1.symm.trans hxname
          have hphm : ((p.1 : String), p.2) ∈ tablesByName des.tables := by
            rw [show ((p.1 : String), p.2) = p from rfl]
            exact hp
          rcases goLookup_isSome_of_mem hphm with ⟨w, hw⟩
          have hkey : p.1 = tableName t.name := by
            rw [(mem_tablesByName hp).2, hpname]
          rw [hkey] at hw
          rw [hdrop] at hw
          cases hw

/-- The C4 counterexample input: a dropped table whose only constraint
element is unnamed. -/
def c4Table : MetaTable :=
  { name := some { idents := ["t"] }, type := "", comment := "", options := [],
    elements := [TableElement.tableConstraintElement { name := "", spec := none }] }

/-- The C4 counterexample current snapshot. -/
def c4Current : MetaDatabase := { name := "d", tables := [c4Table] }

/-- The C4 counterexample desired snapshot. -/
def c4Desired : MetaDatabase := { name := "d", tables := [] }

/-- Counterexample for C4 as stated: the only constraint of the dropped
table is unnamed, yet the output contains a DropConstraint for it (with
empty constraint name); the claim says unnamed constraints produce no
DropConstraint. -/
theorem dropped_table_unnamed_constraint_emitted :
    DiffDatabase c4Current c4Desired =
      [SchemaChange.dropConstraint c4Table.name "" false,
       SchemaChange.dropTable c4Table.name] := by
  decide

/-- The witness table for the amended C4 theorem: one named foreign-key
constraint. -/
def c4wTable : MetaTable :=
  { name := some { idents := ["orders"] }, type := "", comment := "", options := [],
    elements := [TableElement.tableConstraintElement
      { name := "fk_user"
        spec := some (.referenceItem
          { columns := ["user_id"], keyExpr := none, onUpdate := .unknown,
            onDelete := .unknown, matchOpt := .unknown }) }] }

/-- The witness current snapshot for the amended C4 theorem. -/
def c4wCurrent : MetaDatabase := { name := "d", tables := [c4wTable] }

/-- The witness desired snapshot for the amended C4 theorem. -/
def c4wDesired : MetaDatabase := { name := "d", tables := [] }

/-- Witness for the amended C4 theorem: exactly one DropTable and exactly
one foreign-key DropConstraint for the dropped orders table. -/
theorem dropped_table_changes_witness :
    (DiffDatabase c4wCurrent c4wDesired).count (SchemaChange.dropTable c4wTable.name) = 1
    ∧ (DiffDatabase c4wCurrent c4wDesired).count
        (SchemaChange.dropConstraint c4wTable.name "fk_user" true) = 1 :=
  ⟨(dropped_table_changes c4wCurrent c4wDesired c4wTable (by decide) (by decide)
      (by decide)).1,
   ((dropped_table_changes c4wCurrent c4wDesired c4wTable (by decide) (by decide)
      (by decide)).2.1 "fk_user" true).trans (by decide)⟩

/-- Claim C8 (amended): the element list of a converted table is the
columns in source ordinal order, then the convertible non-reference
constraints, then the foreign keys, then the promoted unique or primary
indexes - except that the Postgres converter promotes no indexes (its
index loop body is empty), so its final segment is empty; SQLite and
BigQuery tables convert to columns only. -/
theorem converted_table_element_order (tp : PGTable) (tm : MYTable)
    (ts : SQLiteTable) (tb : BQTable) :
    ((PGTableToMetaTable (some tp)).map MetaTable.elements = some (
        (tp.columns.map fun col => TableElement.columnDefElement (pgColumnToColumnDef col))
        ++ (tp.constraints.filterMap fun con =>
              (PGConstraintToTableConstraint (some con)).map
                TableElement.tableConstraintElement)
        ++ (tp.foreignKeys.filterMap fun fk =>
              (PGForeignKeyToTableConstraint (some fk)).map
                TableElement.tableConstraintElement)
        ++ []))
    ∧ ((MYTableToMetaTable (some tm)).map MetaTable.elements = some (
        (tm.columns.map fun col => TableElement.columnDefElement (myColumnToColumnDef col))
        ++ (tm.foreignKeys.filterMap fun fk =>
              (MYForeignKeyToTableConstraint (some fk)).map
                TableElement.tableConstraintElement)
        ++ (tm.indexes.flatMap fun idx =>
              if idx.isUnique || idx.indexType.toUpper == "PRIMARY" then
                match MYIndexToTableConstraint (some idx) with
                | some tc => [TableElement.tableConstraintElement tc]
                | none => []
              else [])))
    ∧ ((SQLiteTableToMetaTable (some ts)).map MetaTable.elements = some
        (ts.columns.map fun col => TableElement.columnDefElement (sqliteColumnToColumnDef col)))
    ∧ ((BQTableToMetaTable (some tb)).map MetaTable.elements = some
        (tb.schema.map fun col => TableElement.columnDefElement (bqColumnToColumnDef col))) := by
  refine ⟨?_, rfl, rfl, rfl⟩
  have hidx : (tp.indexes.flatMap fun idx =>
      if idx.isPrimary || idx.isUnique then ([] : List TableElement) else []) = [] := by
    rw [List.flatMap_eq_nil_iff]
    intro idx _
    split <;> rfl
  simp [PGTableToMetaTable, hidx]

/-- The C8 counterexample input: a Postgres table whose only content is
one unique index. -/
def c8PGTable : PGTable :=
  { name := some { idents := ["s", "t"] }, tableType := "BASE TABLE", comment := "",
    owner := "", persistence := "", hasRowSecurity := false, rowSecurityForced := false,
    columns := [], constraints := [], foreignKeys := [],
    indexes := [{ name := "uniq_idx", isPrimary := false, isUnique := true,
                  columns := ["c"] }] }

/-- Counterexample for C8 as stated: the source table has a unique index,
but the converted element list is empty - the Postgres converter promotes
no unique or primary index to a table constraint. -/
theorem pg_unique_index_not_promoted :
    (c8PGTable.indexes.any fun idx => idx.isPrimary || idx.isUnique) = true
    ∧ (PGTableToMetaTable (some c8PGTable)).map MetaTable.elements = some [] := by
  exact ⟨rfl, rfl⟩
